import Mathlib

/-!
Verification of the qing-crop character segmentation and classification
engine against its natural-language specification.

The TypeScript sources are shallowly embedded: JS numbers are modelled as
exact rationals (`ℚ`) or naturals where the code only ever holds integers,
`ImageData` becomes a record of width, height and a flat RGBA sample list,
fallible operations return `Option`/`Except`, and in-place mutation is
modelled by functions returning the updated value.  Out-of-bounds reads of
a `Uint8ClampedArray` yield `undefined` in JS, and every comparison
`undefined < 128` is false; we model such reads with default `255`
(background), which gives the same branch behaviour.
-/

/-- Mirror of the DOM `ImageData`: width, height and a flat RGBA byte list
(`data.length = width * height * 4` for well-formed images). -/
structure ImageData where
  width : ℕ
  height : ℕ
  data : List ℕ
deriving DecidableEq

namespace CharSegmentation

/-- Sample read `data[i]`, with out-of-range reads defaulting to background
(see module comment). -/
def pxAt (img : ImageData) (i : ℕ) : ℕ :=
  img.data.getD i 255

/-- Luma of the pixel starting at flat index `i`, as the exact rational
`(299 R + 587 G + 114 B) / 1000` (the source computes
`0.299*data[i] + 0.587*data[i+1] + 0.114*data[i+2]` in floating point). -/
def grayQ (img : ImageData) (i : ℕ) : ℚ :=
  (299 * pxAt img i + 587 * pxAt img (i + 1) + 114 * pxAt img (i + 2)) / 1000

/-- `CharSegmentation.binarize`: each pixel becomes 0 (ink) when its luma is
below the threshold and 255 otherwise, with alpha forced to 255. -/
def binarize (img : ImageData) (threshold : ℚ) : ImageData :=
  { width := img.width
    height := img.height
    data :=
      (List.range (img.data.length / 4)).flatMap fun j =>
        let v : ℕ := if grayQ img (4 * j) < threshold then 0 else 255
        [v, v, v, 255] }

/-- Foreground ("black") test used by the projection and feature code:
`data[(y*width+x)*4] < 128`. -/
def isFg (img : ImageData) (x y : ℕ) : Bool :=
  decide (pxAt img ((y * img.width + x) * 4) < 128)

/-- `CharSegmentation.calculateProjection`: `horizontal[y]` counts the
foreground pixels of row `y`, `vertical[x]` those of column `x`.  The
source fills both arrays in one nested loop; the counts are identical. -/
def calculateProjection (img : ImageData) : List ℕ × List ℕ :=
  ((List.range img.height).map fun y =>
      ((List.range img.width).filter fun x => isFg img x y).length,
   (List.range img.width).map fun x =>
      ((List.range img.height).filter fun y => isFg img x y).length)

/-- Number of foreground pixels of the whole buffer, stated independently
of the projection code (the claim-side quantity of C7). -/
def foregroundCount (img : ImageData) : ℕ :=
  ((Finset.range img.height ×ˢ Finset.range img.width).filter
    fun p => isFg img p.2 p.1).card

/-- Half-open index range of a projection histogram. -/
structure HRange where
  start : ℕ
  stop : ℕ
deriving DecidableEq

/-- Length of the zero run of `l` starting at its head. -/
def zeroRunLen : List ℕ → ℕ
  | [] => 0
  | v :: rest => if v = 0 then zeroRunLen rest + 1 else 0

/-- Scanning core of `CharSegmentation.findRanges`.  `i` is the current
index, `rest` the remaining histogram entries, `inR`/`start` the
`inRange`/`start` variables, `n` the histogram length and `acc` the ranges
pushed so far (in order).  On a zero while inside a range the source
measures the zero run ahead (`gapSize`) and closes the range when it is at
least `minGap` or the zero sits at the last index; a range still open when
the scan ends is closed at `n`. -/
def findRangesGo (minGap n : ℕ) :
    List ℕ → ℕ → Bool → ℕ → List HRange → List HRange
  | [], _, inR, start, acc =>
      if inR then acc ++ [⟨start, n⟩] else acc
  | v :: rest, i, inR, start, acc =>
      if 0 < v then
        if inR then findRangesGo minGap n rest (i + 1) true start acc
        else findRangesGo minGap n rest (i + 1) true i acc
      else
        if inR then
          let gapSize := zeroRunLen (v :: rest)
          if minGap ≤ gapSize ∨ i = n - 1 then
            findRangesGo minGap n rest (i + 1) false start (acc ++ [⟨start, i⟩])
          else
            findRangesGo minGap n rest (i + 1) true start acc
        else findRangesGo minGap n rest (i + 1) false start acc

/-- `CharSegmentation.findRanges`. -/
def findRanges (projection : List ℕ) (minGap : ℕ) : List HRange :=
  findRangesGo minGap projection.length projection 0 false 0 []

end CharSegmentation

section Bridges

/-- Sum of a map over `List.range` as a `Finset.range` sum. -/
theorem sumMapRange {M : Type} [AddCommMonoid M] (f : ℕ → M) (n : ℕ) :
    ((List.range n).map f).sum = ∑ i ∈ Finset.range n, f i := by
  induction n with
  | zero => simp
  | succ n ih => simp [List.range_succ, Finset.sum_range_succ, ih]

/-- The length of a filtered `List.range` as a sum of indicators. -/
theorem lengthFilterRange (p : ℕ → Bool) (n : ℕ) :
    ((List.range n).filter p).length
      = ∑ i ∈ Finset.range n, (if p i then 1 else 0) := by
  induction n with
  | zero => simp
  | succ n ih =>
    rw [List.range_succ, List.filter_append, List.length_append, ih,
      Finset.sum_range_succ]
    by_cases h : p n <;> simp [h]

end Bridges

namespace CharSegmentation

/-- Claim C7: for every buffer, the horizontal projection and the vertical
projection have the same sum, and both equal the number of foreground
pixels of the buffer. -/
theorem projection_sums (img : ImageData) :
    (calculateProjection img).1.sum = (calculateProjection img).2.sum ∧
    (calculateProjection img).1.sum = foregroundCount img := by
  have hh : (calculateProjection img).1.sum
      = ∑ y ∈ Finset.range img.height, ∑ x ∈ Finset.range img.width,
          (if isFg img x y then 1 else 0) := by
    simp only [calculateProjection, sumMapRange]
    exact Finset.sum_congr rfl fun y _ => lengthFilterRange _ _
  have hv : (calculateProjection img).2.sum
      = ∑ x ∈ Finset.range img.width, ∑ y ∈ Finset.range img.height,
          (if isFg img x y then 1 else 0) := by
    simp only [calculateProjection, sumMapRange]
    exact Finset.sum_congr rfl fun x _ => lengthFilterRange _ _
  have hc : foregroundCount img
      = ∑ y ∈ Finset.range img.height, ∑ x ∈ Finset.range img.width,
          (if isFg img x y then 1 else 0) := by
    rw [foregroundCount, Finset.card_filter, Finset.sum_product]
  exact ⟨by rw [hh, hv, Finset.sum_comm], by rw [hh, hc]⟩

/-- Claim C8, part 1 (concrete): `findRanges [0,0,3,4,0,0,0,5,2,0] 1`
yields exactly the ranges `[2,4)` and `[7,9)`.  Part 2 (general): when the
last histogram entry is positive the scan is still inside a range at the
array end, and that trailing range is closed exactly at the array length. -/
theorem findRanges_spec :
    findRanges [0, 0, 3, 4, 0, 0, 0, 5, 2, 0] 1 = [⟨2, 4⟩, ⟨7, 9⟩] ∧
    ∀ (p : List ℕ) (minGap v : ℕ), p.getLast? = some v → 0 < v →
      ∃ (pre : List HRange) (s : ℕ),
        findRanges p minGap = pre ++ [⟨s, p.length⟩] := by
  constructor
  · decide
  · intro p minGap v hlast hv
    -- scanning the tail `pv ++ [v]` with a positive `v` always ends inside
    -- a range, hence the trailing close at `n` fires.
    have key : ∀ (l : List ℕ), l.getLast? = some v →
        ∀ (i : ℕ) (inR : Bool) (start : ℕ) (acc : List HRange) (n : ℕ),
        ∃ pre s, findRangesGo minGap n l i inR start acc = pre ++ [⟨s, n⟩] := by
      intro l
      induction l with
      | nil => intro h; cases h
      | cons a rest ih =>
        intro hl i inR start acc n
        cases rest with
        | nil =>
          have ha : 0 < a := by
            simp only [List.getLast?_singleton, Option.some.injEq] at hl
            exact hl ▸ hv
          cases inR with
          | true => exact ⟨acc, start, by simp [findRangesGo, ha]⟩
          | false => exact ⟨acc, i, by simp [findRangesGo, ha]⟩
        | cons b rest' =>
          have hl' : (b :: rest').getLast? = some v := by
            simpa [List.getLast?_cons_cons] using hl
          simp only [findRangesGo]
          by_cases ha : 0 < a
          · simp only [if_pos ha]
            cases inR with
            | true => exact ih hl' (i + 1) true start acc n
            | false => exact ih hl' (i + 1) true i acc n
          · simp only [if_neg ha]
            cases inR with
            | true =>
              by_cases hgap : minGap ≤ zeroRunLen (a :: b :: rest') ∨ i = n - 1
              · simp only [if_pos hgap]
                exact ih hl' (i + 1) false start (acc ++ [⟨start, i⟩]) n
              · simp only [if_neg hgap]
                exact ih hl' (i + 1) true start acc n
            | false => exact ih hl' (i + 1) false start acc n
    exact key p hlast 0 false 0 [] p.length

/-- Witness for the hypotheses of `findRanges_spec`: on the histogram `[1]`
the trailing open range is closed at the array end. -/
theorem findRanges_spec_witness :
    ∃ (pre : List CharSegmentation.HRange) (s : ℕ),
      findRanges [1] 1 = pre ++ [⟨s, 1⟩] :=
  findRanges_spec.2 [1] 1 1 rfl (by decide)

end CharSegmentation

namespace KMeans

/-- Squared Euclidean distance, looping over the first argument's indices
exactly as `euclideanDistance` does.  The source returns
`Math.sqrt` of this sum; every use below only compares distances, and
`Math.sqrt` is strictly monotone, so comparisons of the squared values
branch identically. -/
def sqDist (a b : List ℚ) : ℚ :=
  ((List.range a.length).map fun i => (a.getD i 0 - b.getD i 0) ^ 2).sum

/-- `KMeans.findNearestCentroid`: index of the nearest centroid, scanning
with a strict `<` so the first minimum wins (`minDist` starts at
`Infinity`, modelled by the `none` state). -/
def findNearest (centroids : List (List ℚ)) (point : List ℚ) : ℕ :=
  ((List.range centroids.length).foldl
    (fun st i =>
      let d := sqDist point (centroids.getD i [])
      match st.1 with
      | none => (some d, i)
      | some m => if d < m then (some d, i) else st)
    ((none : Option ℚ), 0)).2

/-- `KMeans.calculateCentroid`: coordinate-wise mean, with the dimension
taken from the first point. -/
def calculateCentroid (points : List (List ℚ)) : List ℚ :=
  (List.range (points.getD 0 []).length).map fun j =>
    ((points.map fun p => p.getD j 0).sum) / points.length

/-- One Lloyd iteration of `KMeans.fit`: assign every data point to its
nearest centroid (pushed in data order), then replace each non-empty
cluster's centroid by the cluster mean; an empty cluster keeps its
previous centroid. -/
def lloydStep (k : ℕ) (data : List (List ℚ)) (cs : List (List ℚ)) :
    List (List ℚ) :=
  let clusters := (List.range k).map fun i =>
    data.filter fun p => decide (findNearest cs p = i)
  (List.range k).map fun i =>
    let c := clusters.getD i []
    if 0 < c.length then calculateCentroid c else cs.getD i []

/-- `KMeans.checkConvergence`: true when no centroid moved a Euclidean
distance greater than `0.001`, i.e. no squared move exceeds `10⁻⁶`. -/
def checkConvergence (oldCs newCs : List (List ℚ)) : Bool :=
  (List.range oldCs.length).all fun i =>
    decide (sqDist (oldCs.getD i []) (newCs.getD i []) ≤ 1 / 1000000)

/-- The claim-side reading of convergence: every centroid moves at most
`0.001` in Euclidean distance (squared move at most `10⁻⁶`). -/
def movesWithin (oldCs newCs : List (List ℚ)) : Prop :=
  ∀ i < oldCs.length, sqDist (oldCs.getD i []) (newCs.getD i []) ≤ 1 / 1000000

theorem checkConvergence_iff (oldCs newCs : List (List ℚ)) :
    checkConvergence oldCs newCs = true ↔ movesWithin oldCs newCs := by
  simp [checkConvergence, movesWithin, List.all_eq_true]

/-- The `while (!converged && iterations < maxIterations)` loop of
`KMeans.fit`, with the remaining iteration budget as fuel
(`maxIterations = 100`): compute the new centroids, stop when the move
test passes, and otherwise continue from the new centroids. -/
def lloydGo (k : ℕ) (data : List (List ℚ)) : ℕ → List (List ℚ) → List (List ℚ)
  | 0, cs => cs
  | fuel + 1, cs =>
    let newCs := lloydStep k data cs
    if checkConvergence cs newCs then newCs else lloydGo k data fuel newCs

/-- Strict-threshold variant of `checkConvergence` following the claim's
words ("moves less than 0.001"): squared move strictly below `10⁻⁶`. -/
def checkConvergenceStrict (oldCs newCs : List (List ℚ)) : Bool :=
  (List.range oldCs.length).all fun i =>
    decide (sqDist (oldCs.getD i []) (newCs.getD i []) < 1 / 1000000)

/-- The Lloyd loop under the claim's strict convergence test, for
comparison with the source's `lloydGo`. -/
def lloydGoStrict (k : ℕ) (data : List (List ℚ)) :
    ℕ → List (List ℚ) → List (List ℚ)
  | 0, cs => cs
  | fuel + 1, cs =>
    let newCs := lloydStep k data cs
    if checkConvergenceStrict cs newCs then newCs
    else lloydGoStrict k data fuel newCs

/-- Squared distance to the nearest of the given centroids (`minDist²` of
the k-means++ seeding loop; nonempty in every reachable call). -/
def minSqDist (centroids : List (List ℚ)) (point : List ℚ) : ℚ :=
  match centroids with
  | [] => 0
  | c :: rest => rest.foldl (fun m x => min m (sqDist point x)) (sqDist point c)

/-- The probabilistic index pick of the k-means++ seeding: subtract the
squared distances from the random draw `r` and stop at the first index
where the remainder drops to `0` or below; with `Math.random() < 1` this
always fires by the last index, which is therefore the fallback. -/
def pickFrom (r : ℚ) (ds : List ℚ) (i : ℕ) : ℕ :=
  match ds with
  | [] => i
  | [_] => i
  | d :: rest => if r - d ≤ 0 then i else pickFrom (r - d) rest (i + 1)

/-- The `while (centroids.length < k)` loop of
`KMeans.initializeCentroids`.  Each pass draws one oracle value
(`rnd` stands for the unseeded `Math.random()` stream, one draw per pass,
values in `[0,1)`) and appends the picked data point; since every pass
appends exactly one centroid, `k` passes of fuel suffice. -/
def initGo (rnd : ℕ → ℚ) (data : List (List ℚ)) (k : ℕ) :
    ℕ → List (List ℚ) → List (List ℚ)
  | 0, cs => cs
  | fuel + 1, cs =>
    if cs.length < k then
      let distances := data.map fun p => minSqDist cs p
      let r := rnd cs.length * distances.sum
      initGo rnd data k fuel (cs ++ [data.getD (pickFrom r distances 0) []])
    else cs

/-- `KMeans.initializeCentroids` (k-means++ seeding): first centroid at
index `⌊rnd 0 · n⌋`, then distance-weighted picks until `k` centroids
exist. -/
def initializeCentroids (rnd : ℕ → ℚ) (k : ℕ) (data : List (List ℚ)) :
    List (List ℚ) :=
  initGo rnd data k k [data.getD (⌊rnd 0 * data.length⌋).toNat []]

/-- `KMeans.fit`: empty data short-circuits to an empty centroid list;
otherwise seed with k-means++ and run the Lloyd loop for at most 100
iterations. -/
def fit (rnd : ℕ → ℚ) (k : ℕ) (data : List (List ℚ)) : List (List ℚ) :=
  if data.length = 0 then []
  else lloydGo k data 100 (initializeCentroids rnd k data)

/-- Number of Lloyd iterations the loop actually executes from a given
state with the given fuel: 1 if the first new centroid set already passes
the move test, otherwise one more than the count from the new state. -/
def iterCount (k : ℕ) (data : List (List ℚ)) : ℕ → List (List ℚ) → ℕ
  | 0, _ => 0
  | fuel + 1, cs =>
    if checkConvergence cs (lloydStep k data cs) then 1
    else iterCount k data fuel (lloydStep k data cs) + 1

theorem iterCount_le (k : ℕ) (data : List (List ℚ)) :
    ∀ (fuel : ℕ) (cs : List (List ℚ)), iterCount k data fuel cs ≤ fuel := by
  intro fuel
  induction fuel with
  | zero => intro cs; simp [iterCount]
  | succ n ih =>
    intro cs
    by_cases h : checkConvergence cs (lloydStep k data cs) = true
    · simp [iterCount, h]
    · simp only [iterCount, if_neg h]
      exact Nat.succ_le_succ (ih _)

theorem lloydGo_eq_iterate (k : ℕ) (data : List (List ℚ)) :
    ∀ (fuel : ℕ) (cs : List (List ℚ)),
      lloydGo k data fuel cs = (lloydStep k data)^[iterCount k data fuel cs] cs := by
  intro fuel
  induction fuel with
  | zero => intro cs; simp [lloydGo, iterCount]
  | succ n ih =>
    intro cs
    by_cases h : checkConvergence cs (lloydStep k data cs) = true
    · simp [lloydGo, iterCount, h]
    · simp only [lloydGo, iterCount, if_neg h]
      rw [ih, Function.iterate_succ_apply]

theorem iterCount_not_early (k : ℕ) (data : List (List ℚ)) :
    ∀ (fuel : ℕ) (cs : List (List ℚ)) (j : ℕ),
      j + 1 < iterCount k data fuel cs →
      checkConvergence ((lloydStep k data)^[j] cs) ((lloydStep k data)^[j + 1] cs)
        = false := by
  intro fuel
  induction fuel with
  | zero => intro cs j h; simp [iterCount] at h
  | succ n ih =>
    intro cs j h
    by_cases hc : checkConvergence cs (lloydStep k data cs) = true
    · simp [iterCount, hc] at h
    · simp only [iterCount, if_neg hc] at h
      cases j with
      | zero =>
        simpa [Function.iterate_succ_apply] using Bool.eq_false_iff.mpr hc
      | succ j' =>
        have := ih (lloydStep k data cs) j' (by omega)
        simpa [Function.iterate_succ_apply] using this

theorem iterCount_stops_on_convergence (k : ℕ) (data : List (List ℚ)) :
    ∀ (fuel : ℕ) (cs : List (List ℚ)),
      iterCount k data fuel cs < fuel →
      0 < iterCount k data fuel cs ∧
      checkConvergence ((lloydStep k data)^[iterCount k data fuel cs - 1] cs)
        ((lloydStep k data)^[iterCount k data fuel cs] cs) = true := by
  intro fuel
  induction fuel with
  | zero => intro cs h; simp at h
  | succ n ih =>
    intro cs h
    by_cases hc : checkConvergence cs (lloydStep k data cs) = true
    · refine ⟨by simp [iterCount, hc], ?_⟩
      simp only [iterCount, if_pos hc]
      simpa [Function.iterate_succ_apply] using hc
    · simp only [iterCount, if_neg hc] at h ⊢
      have h' : iterCount k data n (lloydStep k data cs) < n := by omega
      obtain ⟨hpos, hconv⟩ := ih (lloydStep k data cs) h'
      refine ⟨by omega, ?_⟩
      have e1 : iterCount k data n (lloydStep k data cs) + 1 - 1
          = (iterCount k data n (lloydStep k data cs) - 1) + 1 := by omega
      rw [e1, Function.iterate_succ_apply, Function.iterate_succ_apply]
      exact hconv

end KMeans

namespace KMeans

/-- Claim C6 (amended): `KMeans.fit` always terminates.  On nonempty data
it performs exactly `iterCount` ≤ 100 Lloyd iterations from the seeded
centroids; before the stopping iteration the move test always fails (so
the loop stops as soon as every centroid moves a Euclidean distance of at
most 0.001 — the source tests `dist > 0.001`, i.e. at-most, not the
claim's strictly-less-than), and whenever it stops before the
100-iteration cap, the stopping iteration did pass that at-most-0.001
move test. -/
theorem fit_terminates (rnd : ℕ → ℚ) (k : ℕ) (data : List (List ℚ))
    (h : data ≠ []) :
    fit rnd k data
      = (lloydStep k data)^[iterCount k data 100 (initializeCentroids rnd k data)]
          (initializeCentroids rnd k data)
    ∧ iterCount k data 100 (initializeCentroids rnd k data) ≤ 100
    ∧ (∀ j, j + 1 < iterCount k data 100 (initializeCentroids rnd k data) →
        ¬ movesWithin
            ((lloydStep k data)^[j] (initializeCentroids rnd k data))
            ((lloydStep k data)^[j + 1] (initializeCentroids rnd k data)))
    ∧ (iterCount k data 100 (initializeCentroids rnd k data) < 100 →
        movesWithin
          ((lloydStep k data)^[iterCount k data 100 (initializeCentroids rnd k data) - 1]
            (initializeCentroids rnd k data))
          ((lloydStep k data)^[iterCount k data 100 (initializeCentroids rnd k data)]
            (initializeCentroids rnd k data))) := by
  have hlen : ¬ data.length = 0 := by
    simpa [List.length_eq_zero] using h
  refine ⟨?_, iterCount_le k data 100 _, ?_, ?_⟩
  · rw [fit, if_neg hlen]
    exact lloydGo_eq_iterate k data 100 _
  · intro j hj hm
    have := iterCount_not_early k data 100 (initializeCentroids rnd k data) j hj
    rw [← checkConvergence_iff] at hm
    rw [this] at hm
    exact Bool.false_ne_true hm
  · intro hlt
    obtain ⟨-, hconv⟩ :=
      iterCount_stops_on_convergence k data 100 (initializeCentroids rnd k data) hlt
    exact (checkConvergence_iff _ _).mp hconv

/-- Witness for `fit_terminates` at a concrete input: one 1-dimensional
point, one cluster, the zero oracle. -/
theorem fit_terminates_witness :
    fit (fun _ => (0 : ℚ)) 1 [[(0 : ℚ)]]
      = (lloydStep 1 [[(0 : ℚ)]])^[iterCount 1 [[(0 : ℚ)]] 100
          (initializeCentroids (fun _ => (0 : ℚ)) 1 [[(0 : ℚ)]])]
          (initializeCentroids (fun _ => (0 : ℚ)) 1 [[(0 : ℚ)]])
    ∧ iterCount 1 [[(0 : ℚ)]] 100
        (initializeCentroids (fun _ => (0 : ℚ)) 1 [[(0 : ℚ)]]) ≤ 100
    ∧ (∀ j, j + 1 < iterCount 1 [[(0 : ℚ)]] 100
          (initializeCentroids (fun _ => (0 : ℚ)) 1 [[(0 : ℚ)]]) →
        ¬ movesWithin
            ((lloydStep 1 [[(0 : ℚ)]])^[j]
              (initializeCentroids (fun _ => (0 : ℚ)) 1 [[(0 : ℚ)]]))
            ((lloydStep 1 [[(0 : ℚ)]])^[j + 1]
              (initializeCentroids (fun _ => (0 : ℚ)) 1 [[(0 : ℚ)]])))
    ∧ (iterCount 1 [[(0 : ℚ)]] 100
          (initializeCentroids (fun _ => (0 : ℚ)) 1 [[(0 : ℚ)]]) < 100 →
        movesWithin
          ((lloydStep 1 [[(0 : ℚ)]])^[iterCount 1 [[(0 : ℚ)]] 100
              (initializeCentroids (fun _ => (0 : ℚ)) 1 [[(0 : ℚ)]]) - 1]
            (initializeCentroids (fun _ => (0 : ℚ)) 1 [[(0 : ℚ)]]))
          ((lloydStep 1 [[(0 : ℚ)]])^[iterCount 1 [[(0 : ℚ)]] 100
              (initializeCentroids (fun _ => (0 : ℚ)) 1 [[(0 : ℚ)]])]
            (initializeCentroids (fun _ => (0 : ℚ)) 1 [[(0 : ℚ)]]))) :=
  fit_terminates (fun _ => (0 : ℚ)) 1 [[(0 : ℚ)]] (by decide)

/-- One-dimensional data set on which the first Lloyd iteration moves the
first centroid by exactly 0.001. -/
def strictDemoData : List (List ℚ) := [[-(1 : ℚ)/2], [251/500], [5001/5000], [14999/5000]]

/-- Initial centroids for `strictDemoData`. -/
def strictDemoCs0 : List (List ℚ) := [[(0 : ℚ)], [2]]

/-- Centroids after one Lloyd iteration on `strictDemoData`. -/
def strictDemoC1 : List (List ℚ) := [[(1 : ℚ)/1000], [2]]

/-- Centroids after two Lloyd iterations on `strictDemoData`. -/
def strictDemoC2 : List (List ℚ) := [[(5011 : ℚ)/15000], [14999/5000]]

/-- Counterexample to claim C6 as stated: on `strictDemoData` the first
Lloyd iteration moves the first centroid by exactly 0.001.  The source's
loop stops there (its test is "not more than 0.001"), although not every
centroid moved strictly less than 0.001, and a loop that stopped only on
the claim's strictly-less-than condition would continue and return
different centroids. -/
theorem lloyd_strict_counterexample :
    lloydGo 2 strictDemoData 100 strictDemoCs0 = strictDemoC1
    ∧ checkConvergenceStrict strictDemoCs0 strictDemoC1 = false
    ∧ lloydGoStrict 2 strictDemoData 100 strictDemoCs0 ≠ strictDemoC1 := by
  have hr2 : List.range 2 = [0, 1] := by decide
  have hr1 : List.range 1 = [0] := by decide
  have hstep1 : lloydStep 2 strictDemoData strictDemoCs0 = strictDemoC1 := by
    norm_num [lloydStep, calculateCentroid, findNearest, sqDist,
      strictDemoData, strictDemoCs0, strictDemoC1, hr2, hr1]
  have hconv1 : checkConvergence strictDemoCs0 strictDemoC1 = true := by
    norm_num [checkConvergence, sqDist, strictDemoCs0, strictDemoC1, hr2, hr1]
  have hstrict1 : checkConvergenceStrict strictDemoCs0 strictDemoC1 = false := by
    norm_num [checkConvergenceStrict, sqDist, strictDemoCs0, strictDemoC1, hr2, hr1]
  have hstep2 : lloydStep 2 strictDemoData strictDemoC1 = strictDemoC2 := by
    norm_num [lloydStep, calculateCentroid, findNearest, sqDist,
      strictDemoData, strictDemoC1, strictDemoC2, hr2, hr1]
  have hstrict2 : checkConvergenceStrict strictDemoC1 strictDemoC2 = false := by
    norm_num [checkConvergenceStrict, sqDist, strictDemoC1, strictDemoC2, hr2, hr1]
  have hstep3 : lloydStep 2 strictDemoData strictDemoC2 = strictDemoC2 := by
    norm_num [lloydStep, calculateCentroid, findNearest, sqDist,
      strictDemoData, strictDemoC2, hr2, hr1]
  have hstrict3 : checkConvergenceStrict strictDemoC2 strictDemoC2 = true := by
    norm_num [checkConvergenceStrict, sqDist, strictDemoC2, hr2, hr1]
  refine ⟨?_, hstrict1, ?_⟩
  · show lloydGo 2 strictDemoData (99 + 1) strictDemoCs0 = strictDemoC1
    rw [lloydGo]
    simp only [hstep1, hconv1, if_true]
  · have e1 : lloydGoStrict 2 strictDemoData 100 strictDemoCs0
        = lloydGoStrict 2 strictDemoData 99 strictDemoC1 := by
      show lloydGoStrict 2 strictDemoData (99 + 1) strictDemoCs0 = _
      rw [lloydGoStrict]
      simp only [hstep1, hstrict1, Bool.false_eq_true, if_false]
    have e2 : lloydGoStrict 2 strictDemoData 99 strictDemoC1
        = lloydGoStrict 2 strictDemoData 98 strictDemoC2 := by
      show lloydGoStrict 2 strictDemoData (98 + 1) strictDemoC1 = _
      rw [lloydGoStrict]
      simp only [hstep2, hstrict2, Bool.false_eq_true, if_false]
    have e3 : lloydGoStrict 2 strictDemoData 98 strictDemoC2 = strictDemoC2 := by
      show lloydGoStrict 2 strictDemoData (97 + 1) strictDemoC2 = _
      rw [lloydGoStrict]
      simp only [hstep3, hstrict3, if_true]
    rw [e1, e2, e3]
    norm_num [strictDemoC1, strictDemoC2]

end KMeans

/-- Mirror of the `FeatureVector` interface: a feature list with an
optional label. -/
structure FeatureVec where
  features : List ℚ
  label : Option String
deriving DecidableEq

namespace KNN

/-- The labelled-distance list both KNN prediction methods build: one
entry per stored training sample whose `label` is truthy (present and
non-empty, JS string truthiness), in storage order, carrying the squared
Euclidean distance to the query (the source stores `Math.sqrt` of it;
all uses below are order comparisons, and `Math.sqrt` is strictly
monotone). -/
def distancesTo (training : List FeatureVec) (features : List ℚ) :
    List (String × ℚ) :=
  training.filterMap fun s =>
    match s.label with
    | some l => if l.isEmpty then none else some (l, KMeans.sqDist features s.features)
    | none => none

/-- Ascending-by-distance order used for `distances.sort((a,b) => a.distance - b.distance)`;
ES2019 `Array.prototype.sort` is stable, modelled by a stable insertion
sort. -/
def distLe (a b : String × ℚ) : Prop := a.2 ≤ b.2

instance : DecidableRel distLe := fun a b => by
  unfold distLe; infer_instance

/-- Vote accumulation in a `Map<string, number>`: first occurrence
appends, later occurrences bump in place (insertion order preserved). -/
def bumpVote (l : String) (n : ℚ) : List (String × ℚ) → List (String × ℚ)
  | [] => [(l, n)]
  | (k, c) :: rest => if k = l then (k, c + n) :: rest else (k, c) :: bumpVote l n rest

/-- Max scan over the vote map with a strict `>` (first maximum wins),
starting from `maxVotes = 0` and a `null` label. -/
def voteWinner (votes : List (String × ℚ)) : ℚ × Option String :=
  votes.foldl (fun st p => if st.1 < p.2 then (p.2, some p.1) else st)
    ((0 : ℚ), (none : Option String))

/-- `KNN.predict`: `null` on an empty training set, otherwise the
majority label (count votes) among the `min k …` nearest samples. -/
def predict (k : ℕ) (training : List FeatureVec) (features : List ℚ) :
    Option String :=
  if training.length = 0 then none
  else
    let distances := distancesTo training features
    let sorted := distances.insertionSort distLe
    let kNearest := sorted.take (min k distances.length)
    let votes := kNearest.foldl (fun vs nb => bumpVote nb.1 1 vs) []
    (voteWinner votes).2

/-- `KNN.predictWithConfidence`: `{label: null, confidence: 0}` on an
empty training set, otherwise distance-weighted votes
`1 / (distance + 0.001)` with confidence `maxWeight / totalWeight`.
`Math.sqrt` (whose exact value enters the weights, not just their order)
is not rational; it is abstracted by the `sqrtA` parameter. -/
def predictWithConfidence (sqrtA : ℚ → ℚ) (k : ℕ)
    (training : List FeatureVec) (features : List ℚ) : Option String × ℚ :=
  if training.length = 0 then (none, 0)
  else
    let distances := distancesTo training features
    let sorted := distances.insertionSort distLe
    let kNearest := sorted.take (min k distances.length)
    let acc := kNearest.foldl
      (fun st nb =>
        let weight := 1 / (sqrtA nb.2 + 1/1000)
        (bumpVote nb.1 weight st.1, st.2 + weight))
      (([] : List (String × ℚ)), (0 : ℚ))
    let winner := voteWinner acc.1
    (winner.2, if 0 < acc.2 then winner.1 / acc.2 else 0)

end KNN

/-- Claim C10: empty input is a no-op, never an error.  `KMeans.fit` on an
empty data set returns an empty centroid list for every oracle and `k`;
`KNN.predict` with an empty stored training set returns `null`; and
`KNN.predictWithConfidence` with an empty stored training set returns
`{label: null, confidence: 0}`.  (The embedded functions are total, so
none of these computations can throw.) -/
theorem empty_input_noop :
    (∀ (rnd : ℕ → ℚ) (k : ℕ), KMeans.fit rnd k [] = [])
    ∧ (∀ (k : ℕ) (features : List ℚ), KNN.predict k [] features = none)
    ∧ (∀ (sqrtA : ℚ → ℚ) (k : ℕ) (features : List ℚ),
        KNN.predictWithConfidence sqrtA k [] features = (none, 0)) :=
  ⟨fun _ _ => rfl, fun _ _ => rfl, fun _ _ _ => rfl⟩

/-- A stored training sample of the enhanced OCR engine
(`{features: number[], label: string}`). -/
structure TrainingSample where
  features : List ℚ
  label : String
deriving DecidableEq

namespace EnhancedOCREngine

/-- `EnhancedOCREngine.importTrainingData`.  `JSON.parse` is a host
builtin, abstracted as the `parse` parameter (`none` models a parse
exception).  The source wraps the single assignment
`this.trainingData = JSON.parse(data)` in `try … catch`; the catch only
logs to the console, so the caller always observes a normal `void`
return, modelled as `Except.ok ()` in both branches. -/
def importTrainingData (parse : String → Option (List TrainingSample))
    (stored : List TrainingSample) (input : String) :
    List TrainingSample × Except String Unit :=
  match parse input with
  | some parsed => (parsed, Except.ok ())
  | none => (stored, Except.ok ())

/-- Counterexample to claim C3 as stated: on an unparsable input the
stored list is indeed left unchanged, but no failure reaches the caller —
the call returns normally (`Except.ok ()`), the error being only logged
inside the `catch`. -/
theorem importTrainingData_swallows :
    importTrainingData (fun _ => none) [⟨[1], "a"⟩] "not json"
      = ([⟨[1], "a"⟩], Except.ok ()) := rfl

/-- Claim C3 (amended): for every stored list and every input string that
does not parse, `importTrainingData` leaves the stored training-sample
list exactly as it was (the import is never partially applied), but the
failure is swallowed — the caller observes a normal return, not an
error. -/
theorem importTrainingData_atomic (parse : String → Option (List TrainingSample))
    (stored : List TrainingSample) (input : String)
    (h : parse input = none) :
    importTrainingData parse stored input = (stored, Except.ok ()) := by
  simp [importTrainingData, h]

/-- Witness for `importTrainingData_atomic` at a concrete failing parse. -/
theorem importTrainingData_atomic_witness :
    importTrainingData (fun _ => none) [⟨[2], "b"⟩] "x"
      = ([⟨[2], "b"⟩], Except.ok ()) :=
  importTrainingData_atomic (fun _ => none) [⟨[2], "b"⟩] "x" rfl

end EnhancedOCREngine

namespace CharSegmentation

/-- Rounded luma `Math.round(0.299 R + 0.587 G + 0.114 B)` of pixel `j`,
computed exactly: `Math.round x = ⌊x + 1/2⌋` for nonnegative `x`, i.e.
`(299 R + 587 G + 114 B + 500) / 1000` in integer division. -/
def lumaAt (img : ImageData) (j : ℕ) : ℕ :=
  (299 * pxAt img (4 * j) + 587 * pxAt img (4 * j + 1)
    + 114 * pxAt img (4 * j + 2) + 500) / 1000

/-- The grayscale sample list (`grayData`) built by `otsuBinarize`. -/
def grayList (img : ImageData) : List ℕ :=
  (List.range (img.data.length / 4)).map fun j => lumaAt img j

/-- The 256-bin luma histogram entry for value `v` (the single-pass
increment loop of the source produces exactly these counts). -/
def histAt (img : ImageData) (v : ℕ) : ℕ :=
  (grayList img).count v

/-- Class-0 population `w0` at threshold `t`: pixels with luma `≤ t`. -/
def w0 (img : ImageData) (t : ℕ) : ℕ :=
  ∑ i ∈ Finset.range (t + 1), histAt img i

/-- Class-1 population `w1` at threshold `t`: pixels with luma in
`[t+1, 255]`. -/
def w1 (img : ImageData) (t : ℕ) : ℕ :=
  ∑ i ∈ Finset.Ico (t + 1) 256, histAt img i

/-- Class-0 luma mass `sum0` at threshold `t`. -/
def s0 (img : ImageData) (t : ℕ) : ℕ :=
  ∑ i ∈ Finset.range (t + 1), i * histAt img i

/-- Class-1 luma mass `sum1` at threshold `t`. -/
def s1 (img : ImageData) (t : ℕ) : ℕ :=
  ∑ i ∈ Finset.Ico (t + 1) 256, i * histAt img i

/-- Between-class variance `w0·w1·(mean0−mean1)² / total²` at threshold
`t` (evaluated by the source only when both classes are non-empty). -/
def variance (img : ImageData) (t : ℕ) : ℚ :=
  (w0 img t : ℚ) * (w1 img t : ℚ) *
      ((s0 img t : ℚ) / (w0 img t : ℚ) - (s1 img t : ℚ) / (w1 img t : ℚ)) ^ 2
    / (((grayList img).length : ℚ) * ((grayList img).length : ℚ))

/-- One step of the Otsu threshold search: skip a threshold with an empty
class (`continue`), otherwise keep the first strict improvement of the
running maximum (`variance > maxVariance`). -/
def otsuStep (img : ImageData) (st : ℚ × ℕ) (t : ℕ) : ℚ × ℕ :=
  if w0 img t = 0 ∨ w1 img t = 0 then st
  else if st.1 < variance img t then (variance img t, t) else st

/-- The full scan `for (t = 0; t < 256; t++)`, starting from
`maxVariance = 0`, `optimalThreshold = 128`. -/
def otsuScan (img : ImageData) : ℚ × ℕ :=
  (List.range 256).foldl (otsuStep img) (0, 128)

/-- The `optimalThreshold` selected by `CharSegmentation.otsuBinarize`. -/
def otsuThreshold (img : ImageData) : ℕ :=
  (otsuScan img).2

/-- `CharSegmentation.otsuBinarize`: binarize at the Otsu threshold. -/
def otsuBinarize (img : ImageData) : ImageData :=
  binarize img (otsuThreshold img)

theorem grayList_length_pos_of_w0 (img : ImageData) (t : ℕ)
    (h0 : 0 < w0 img t) : 0 < (grayList img).length := by
  by_contra hlen
  have hnil : grayList img = [] :=
    List.length_eq_zero.mp (Nat.eq_zero_of_not_pos hlen)
  rw [w0] at h0
  simp [histAt, hnil] at h0

/-- Both classes non-empty forces a strictly positive between-class
variance: `mean0 ≤ t < t + 1 ≤ mean1`. -/
theorem variance_pos (img : ImageData) (t : ℕ)
    (h0 : 0 < w0 img t) (h1 : 0 < w1 img t) : 0 < variance img t := by
  have hq0 : (0 : ℚ) < (w0 img t : ℚ) := by exact_mod_cast h0
  have hq1 : (0 : ℚ) < (w1 img t : ℚ) := by exact_mod_cast h1
  have hs0 : s0 img t ≤ t * w0 img t := by
    rw [s0, w0, Finset.mul_sum]
    refine Finset.sum_le_sum ?_
    intro i hi
    exact Nat.mul_le_mul_right _ (Nat.lt_succ_iff.mp (Finset.mem_range.mp hi))
  have hs1 : (t + 1) * w1 img t ≤ s1 img t := by
    rw [s1, w1, Finset.mul_sum]
    refine Finset.sum_le_sum ?_
    intro i hi
    exact Nat.mul_le_mul_right _ (Finset.mem_Ico.mp hi).1
  have hm0 : (s0 img t : ℚ) / (w0 img t : ℚ) ≤ (t : ℚ) := by
    rw [div_le_iff₀ hq0]
    exact_mod_cast hs0
  have hm1 : (t : ℚ) + 1 ≤ (s1 img t : ℚ) / (w1 img t : ℚ) := by
    rw [le_div_iff₀ hq1]
    exact_mod_cast hs1
  have hsq : (1 : ℚ) ≤
      ((s0 img t : ℚ) / (w0 img t : ℚ) - (s1 img t : ℚ) / (w1 img t : ℚ)) ^ 2 := by
    nlinarith [hm0, hm1]
  have hlen : (0 : ℚ) < ((grayList img).length : ℚ) := by
    exact_mod_cast grayList_length_pos_of_w0 img t h0
  rw [variance]
  have hnum : (0 : ℚ) < (w0 img t : ℚ) * (w1 img t : ℚ) *
      ((s0 img t : ℚ) / (w0 img t : ℚ) - (s1 img t : ℚ) / (w1 img t : ℚ)) ^ 2 := by
    have := mul_pos hq0 hq1
    nlinarith [hsq, this]
  exact div_pos hnum (by positivity)

/-- Invariant of the Otsu scan after the first `n` candidate thresholds:
either no threshold so far had both classes non-empty and the state is
still `(0, 128)`, or the state holds the first threshold attaining the
running maximum variance. -/
theorem otsuScan_inv (img : ImageData) (n : ℕ) :
    ((List.range n).foldl (otsuStep img) (0, 128) = ((0 : ℚ), 128) ∧
      ∀ t < n, w0 img t = 0 ∨ w1 img t = 0)
    ∨ (∃ m, m < n ∧ 0 < w0 img m ∧ 0 < w1 img m ∧
        (List.range n).foldl (otsuStep img) (0, 128) = (variance img m, m) ∧
        (∀ t < n, 0 < w0 img t → 0 < w1 img t → variance img t ≤ variance img m) ∧
        (∀ t < m, 0 < w0 img t → 0 < w1 img t → variance img t < variance img m)) := by
  induction n with
  | zero => exact Or.inl ⟨rfl, fun t ht => absurd ht (Nat.not_lt_zero t)⟩
  | succ n ih =>
    rw [List.range_succ, List.foldl_append, List.foldl_cons, List.foldl_nil]
    by_cases hv : w0 img n = 0 ∨ w1 img n = 0
    · rcases ih with ⟨hst, hall⟩ | ⟨m, hm, h0, h1, hst, hmax, hfirst⟩
      · refine Or.inl ⟨?_, ?_⟩
        · rw [hst, otsuStep, if_pos hv]
        · intro t ht
          rcases Nat.lt_succ_iff_lt_or_eq.mp ht with h | h
          · exact hall t h
          · exact h ▸ hv
      · refine Or.inr ⟨m, Nat.lt_succ_of_lt hm, h0, h1, ?_, ?_, hfirst⟩
        · rw [hst, otsuStep, if_pos hv]
        · intro t ht ht0 ht1
          rcases Nat.lt_succ_iff_lt_or_eq.mp ht with h | h
          · exact hmax t h ht0 ht1
          · subst h
            rcases hv with h | h
            · exact absurd h (Nat.pos_iff_ne_zero.mp ht0)
            · exact absurd h (Nat.pos_iff_ne_zero.mp ht1)
    · push_neg at hv
      have h0n : 0 < w0 img n := Nat.pos_of_ne_zero hv.1
      have h1n : 0 < w1 img n := Nat.pos_of_ne_zero hv.2
      have hvne : ¬ (w0 img n = 0 ∨ w1 img n = 0) := by
        push_neg
        exact ⟨hv.1, hv.2⟩
      rcases ih with ⟨hst, hall⟩ | ⟨m, hm, h0, h1, hst, hmax, hfirst⟩
      · have hlt : (((List.range n).foldl (otsuStep img) (0, 128)).1 : ℚ)
            < variance img n := by
          rw [hst]
          exact variance_pos img n h0n h1n
        refine Or.inr ⟨n, Nat.lt_succ_self n, h0n, h1n, ?_, ?_, ?_⟩
        · rw [hst] at hlt ⊢
          rw [otsuStep, if_neg hvne, if_pos hlt]
        · intro t ht ht0 ht1
          rcases Nat.lt_succ_iff_lt_or_eq.mp ht with h | h
          · rcases hall t h with hc | hc
            · exact absurd hc (Nat.pos_iff_ne_zero.mp ht0)
            · exact absurd hc (Nat.pos_iff_ne_zero.mp ht1)
          · exact h ▸ le_refl _
        · intro t ht ht0 ht1
          rcases hall t ht with hc | hc
          · exact absurd hc (Nat.pos_iff_ne_zero.mp ht0)
          · exact absurd hc (Nat.pos_iff_ne_zero.mp ht1)
      · by_cases himp : variance img m < variance img n
        · refine Or.inr ⟨n, Nat.lt_succ_self n, h0n, h1n, ?_, ?_, ?_⟩
          · rw [hst, otsuStep, if_neg hvne]
            simp only [if_pos himp]
          · intro t ht ht0 ht1
            rcases Nat.lt_succ_iff_lt_or_eq.mp ht with h | h
            · exact le_of_lt (lt_of_le_of_lt (hmax t h ht0 ht1) himp)
            · exact h ▸ le_refl _
          · intro t ht ht0 ht1
            exact lt_of_le_of_lt (hmax t ht ht0 ht1) himp
        · refine Or.inr ⟨m, Nat.lt_succ_of_lt hm, h0, h1, ?_, ?_, hfirst⟩
          · rw [hst, otsuStep, if_neg hvne]
            simp only [if_neg himp]
          · intro t ht ht0 ht1
            rcases Nat.lt_succ_iff_lt_or_eq.mp ht with h | h
            · exact hmax t h ht0 ht1
            · subst h
              exact le_of_not_lt himp

/-- Claim C5: the Otsu threshold maximizes the between-class variance
`w0·w1·(mean0−mean1)²` over the full pixel population among all candidate
thresholds with two non-empty classes, keeping the lowest threshold on
ties (any valid candidate below the chosen one has strictly smaller
variance); and when every pixel's luma falls into one class for every
candidate threshold, the fallback threshold 128 is selected.
`otsuBinarize` then binarizes at that threshold (definitionally). -/
theorem otsu_threshold_spec (img : ImageData) :
    ((∀ t < 256, w0 img t = 0 ∨ w1 img t = 0) → otsuThreshold img = 128)
    ∧ (∀ t, t < 256 → 0 < w0 img t → 0 < w1 img t →
        0 < w0 img (otsuThreshold img) ∧ 0 < w1 img (otsuThreshold img)
        ∧ otsuThreshold img < 256
        ∧ variance img t ≤ variance img (otsuThreshold img)
        ∧ (∀ u < otsuThreshold img, 0 < w0 img u → 0 < w1 img u →
            variance img u < variance img (otsuThreshold img))) := by
  constructor
  · intro hdeg
    rcases otsuScan_inv img 256 with ⟨hst, -⟩ | ⟨m, hm, h0, h1, -, -, -⟩
    · rw [otsuThreshold, otsuScan, hst]
    · rcases hdeg m hm with hc | hc
      · exact absurd hc (Nat.pos_iff_ne_zero.mp h0)
      · exact absurd hc (Nat.pos_iff_ne_zero.mp h1)
  · intro t ht ht0 ht1
    rcases otsuScan_inv img 256 with ⟨-, hall⟩ | ⟨m, hm, h0, h1, hst, hmax, hfirst⟩
    · rcases hall t ht with hc | hc
      · exact absurd hc (Nat.pos_iff_ne_zero.mp ht0)
      · exact absurd hc (Nat.pos_iff_ne_zero.mp ht1)
    · have hthr : otsuThreshold img = m := by
        rw [otsuThreshold, otsuScan, hst]
      rw [hthr]
      exact ⟨h0, h1, hm, hmax t ht ht0 ht1, hfirst⟩

set_option maxRecDepth 4000 in
/-- Witness for `otsu_threshold_spec`: a two-pixel buffer (one black, one
white pixel) where threshold 0 splits into two non-empty classes. -/
theorem otsu_threshold_spec_witness :
    0 < w0 ⟨2, 1, [0, 0, 0, 255, 255, 255, 255, 255]⟩ (otsuThreshold ⟨2, 1, [0, 0, 0, 255, 255, 255, 255, 255]⟩)
    ∧ 0 < w1 ⟨2, 1, [0, 0, 0, 255, 255, 255, 255, 255]⟩ (otsuThreshold ⟨2, 1, [0, 0, 0, 255, 255, 255, 255, 255]⟩)
    ∧ otsuThreshold ⟨2, 1, [0, 0, 0, 255, 255, 255, 255, 255]⟩ < 256
    ∧ variance ⟨2, 1, [0, 0, 0, 255, 255, 255, 255, 255]⟩ 0
        ≤ variance ⟨2, 1, [0, 0, 0, 255, 255, 255, 255, 255]⟩
            (otsuThreshold ⟨2, 1, [0, 0, 0, 255, 255, 255, 255, 255]⟩)
    ∧ (∀ u < otsuThreshold ⟨2, 1, [0, 0, 0, 255, 255, 255, 255, 255]⟩,
        0 < w0 ⟨2, 1, [0, 0, 0, 255, 255, 255, 255, 255]⟩ u →
        0 < w1 ⟨2, 1, [0, 0, 0, 255, 255, 255, 255, 255]⟩ u →
        variance ⟨2, 1, [0, 0, 0, 255, 255, 255, 255, 255]⟩ u
          < variance ⟨2, 1, [0, 0, 0, 255, 255, 255, 255, 255]⟩
              (otsuThreshold ⟨2, 1, [0, 0, 0, 255, 255, 255, 255, 255]⟩)) :=
  (otsu_threshold_spec ⟨2, 1, [0, 0, 0, 255, 255, 255, 255, 255]⟩).2 0
    (by decide) (by decide) (by decide)

end CharSegmentation

namespace FeatureExtractor

/-- Forward-difference gradient `(gx, gy)` at `(x, y)`:
`data[rightIdx] - data[idx]` and `data[downIdx] - data[idx]`. -/
def gradAt (img : ImageData) (x y : ℕ) : ℤ × ℤ :=
  let idx := (y * img.width + x) * 4
  let rightIdx := (y * img.width + x + 1) * 4
  let downIdx := ((y + 1) * img.width + x) * 4
  ((CharSegmentation.pxAt img rightIdx : ℤ) - (CharSegmentation.pxAt img idx : ℤ),
   (CharSegmentation.pxAt img downIdx : ℤ) - (CharSegmentation.pxAt img idx : ℤ))

/-- Un-normalized 9-bin gradient histogram of one cell.  The source bins
by `Math.atan2(gy,gx)` and accumulates `Math.sqrt(gx²+gy²)`; both are
transcendental in the pixel values, so the orientation-binning and
magnitude map `(gx, gy) ↦ (bin, magnitude)` is abstracted as the `grad`
parameter — every claim below holds for all such maps.  The pixel loops
run `cellY ≤ y < min(cellY+cellSize, height-1)` and likewise for `x`,
exactly as in the source. -/
def hogCellHist (grad : ℤ → ℤ → Fin 9 × ℚ) (img : ImageData)
    (cellSize cx cy : ℕ) : List ℚ :=
  let cellX := cx * cellSize
  let cellY := cy * cellSize
  let ys := List.range' cellY (min (cellY + cellSize) (img.height - 1) - cellY)
  let xs := List.range' cellX (min (cellX + cellSize) (img.width - 1) - cellX)
  ys.foldl
    (fun hist y =>
      xs.foldl
        (fun h x =>
          let g := gradAt img x y
          let bm := grad g.1 g.2
          h.set bm.1 (h.getD bm.1 0 + bm.2))
        hist)
    (List.replicate 9 0)

/-- L1 normalization of a cell histogram, skipped when the total is not
positive. -/
def normalizeHist (hist : List ℚ) : List ℚ :=
  if 0 < hist.sum then hist.map fun v => v / hist.sum else hist

/-- `FeatureExtractor.extractHOGFeatures`: per-cell normalized 9-bin
histograms over a `ceil(w/cellSize) × ceil(h/cellSize)` cell grid,
concatenated row-major. -/
def extractHOGFeatures (grad : ℤ → ℤ → Fin 9 × ℚ) (img : ImageData)
    (cellSize : ℕ) : List ℚ :=
  let numCellsX := (img.width + cellSize - 1) / cellSize
  let numCellsY := (img.height + cellSize - 1) / cellSize
  (List.range numCellsY).flatMap fun cy =>
    (List.range numCellsX).flatMap fun cx =>
      normalizeHist (hogCellHist grad img cellSize cx cy)

/-- `FeatureExtractor.extractProjectionFeatures`: horizontal and vertical
foreground counts, each block normalized by its own maximum and pushed
only when that maximum is positive (`Math.max(...empty)` is `-Infinity`,
also failing the `> 0` test, so a `0` default is equivalent). -/
def extractProjectionFeatures (img : ImageData) : List ℚ :=
  let horizontal := (List.range img.height).map fun y =>
    ((List.range img.width).filter fun x => CharSegmentation.isFg img x y).length
  let vertical := (List.range img.width).map fun x =>
    ((List.range img.height).filter fun y => CharSegmentation.isFg img x y).length
  let hMax := horizontal.foldr max 0
  let vMax := vertical.foldr max 0
  (if 0 < hMax then horizontal.map fun v : ℕ => (v : ℚ) / (hMax : ℚ) else [])
    ++ (if 0 < vMax then vertical.map fun v : ℕ => (v : ℚ) / (vMax : ℚ) else [])

/-- Coordinates of all foreground pixels, row-major. -/
def inkCoords (img : ImageData) : List (ℕ × ℕ) :=
  (List.range img.height).flatMap fun y =>
    ((List.range img.width).filter fun x => CharSegmentation.isFg img x y).map
      fun x => (x, y)

/-- `FeatureExtractor.extractContourFeatures`: five scalars — boundary
density, ink aspect, ink share, relative ink width and height.  JS
produces `NaN`/`Infinity` on the zero-denominator edge cases; `ℚ` maps
those divisions to 0, which no claim below depends on. -/
def extractContourFeatures (img : ImageData) : List ℚ :=
  let w := img.width
  let h := img.height
  let contourPoints :=
    ((List.range' 1 (h - 2)).flatMap fun y =>
      (List.range' 1 (w - 2)).filter fun x =>
        CharSegmentation.isFg img x y &&
          (decide (CharSegmentation.pxAt img (((y - 1) * w + x) * 4) ≥ 128) ||
           decide (CharSegmentation.pxAt img (((y + 1) * w + x) * 4) ≥ 128) ||
           decide (CharSegmentation.pxAt img ((y * w + x - 1) * 4) ≥ 128) ||
           decide (CharSegmentation.pxAt img ((y * w + x + 1) * 4) ≥ 128))).length
  let minX := ((inkCoords img).map Prod.fst).foldl min w
  let maxX := ((inkCoords img).map Prod.fst).foldl max 0
  let minY := ((inkCoords img).map Prod.snd).foldl min h
  let maxY := ((inkCoords img).map Prod.snd).foldl max 0
  let charWidth : ℤ := (maxX : ℤ) - (minX : ℤ) + 1
  let charHeight : ℤ := (maxY : ℤ) - (minY : ℤ) + 1
  let aspect : ℚ := if 0 < charHeight then (charWidth : ℚ) / (charHeight : ℚ) else 1
  let blackPixels :=
    ((List.range img.data.length).filter fun i =>
      decide (i % 4 = 0) && decide (img.data.getD i 0 < 128)).length
  [(contourPoints : ℚ) / ((w : ℚ) * (h : ℚ)),
   aspect,
   (blackPixels : ℚ) / ((w * h : ℕ) : ℚ),
   (charWidth : ℚ) / (w : ℚ),
   (charHeight : ℚ) / (h : ℚ)]

/-- `FeatureExtractor.extractAllFeatures`: HOG (cell size 8) ++ projection
++ contour features, in that order. -/
def extractAllFeatures (grad : ℤ → ℤ → Fin 9 × ℚ) (img : ImageData) : List ℚ :=
  extractHOGFeatures grad img 8 ++ extractProjectionFeatures img
    ++ extractContourFeatures img

/-- Whether the buffer contains any foreground pixel. -/
def hasInk (img : ImageData) : Bool :=
  (List.range img.height).any fun y =>
    (List.range img.width).any fun x => CharSegmentation.isFg img x y

theorem foldlPreservesLength {α : Type} (g : List ℚ → α → List ℚ)
    (hg : ∀ l a, (g l a).length = l.length) :
    ∀ (xs : List α) (l : List ℚ), (xs.foldl g l).length = l.length := by
  intro xs
  induction xs with
  | nil => intro l; rfl
  | cons a xs ih => intro l; rw [List.foldl_cons, ih, hg]

theorem hogCellHist_length (grad : ℤ → ℤ → Fin 9 × ℚ) (img : ImageData)
    (cellSize cx cy : ℕ) : (hogCellHist grad img cellSize cx cy).length = 9 := by
  rw [hogCellHist]
  have inner : ∀ (xs : List ℕ) (y : ℕ) (l : List ℚ),
      (xs.foldl (fun h x =>
        let g := gradAt img x y
        let bm := grad g.1 g.2
        h.set bm.1 (h.getD bm.1 0 + bm.2)) l).length = l.length := by
    intro xs y
    exact foldlPreservesLength _ (fun l a => List.length_set _ _ _) xs
  have outer := foldlPreservesLength
    (fun hist y =>
      (List.range' (cx * cellSize)
          (min (cx * cellSize + cellSize) (img.width - 1) - cx * cellSize)).foldl
        (fun h x =>
          let g := gradAt img x y
          let bm := grad g.1 g.2
          h.set bm.1 (h.getD bm.1 0 + bm.2)) hist)
    (fun l a => inner _ a l)
    (List.range' (cy * cellSize)
      (min (cy * cellSize + cellSize) (img.height - 1) - cy * cellSize))
    (List.replicate 9 0)
  simpa using outer

theorem normalizeHist_length (hist : List ℚ) :
    (normalizeHist hist).length = hist.length := by
  rw [normalizeHist]
  by_cases h : 0 < hist.sum <;> simp [h]

theorem extractHOGFeatures_length (grad : ℤ → ℤ → Fin 9 × ℚ) (img : ImageData)
    (cellSize : ℕ) :
    (extractHOGFeatures grad img cellSize).length
      = 9 * ((img.height + cellSize - 1) / cellSize)
          * ((img.width + cellSize - 1) / cellSize) := by
  rw [extractHOGFeatures]
  rw [List.length_flatMap]
  have hrow : ∀ cy : ℕ,
      ((List.range ((img.width + cellSize - 1) / cellSize)).flatMap fun cx =>
        normalizeHist (hogCellHist grad img cellSize cx cy)).length
      = 9 * ((img.width + cellSize - 1) / cellSize) := by
    intro cy
    rw [List.length_flatMap]
    have : (List.map
        (List.length ∘ fun cx => normalizeHist (hogCellHist grad img cellSize cx cy))
        (List.range ((img.width + cellSize - 1) / cellSize)))
        = List.map (fun _ => 9) (List.range ((img.width + cellSize - 1) / cellSize)) :=
      List.map_congr_left fun cx _ => by
        simp [normalizeHist_length, hogCellHist_length]
    rw [this, List.map_const', List.length_range, List.sum_replicate, smul_eq_mul,
      Nat.mul_comm]
  have : (List.map
      (List.length ∘ fun cy =>
        (List.range ((img.width + cellSize - 1) / cellSize)).flatMap fun cx =>
          normalizeHist (hogCellHist grad img cellSize cx cy))
      (List.range ((img.height + cellSize - 1) / cellSize)))
      = List.map (fun _ => 9 * ((img.width + cellSize - 1) / cellSize))
          (List.range ((img.height + cellSize - 1) / cellSize)) :=
    List.map_congr_left fun cy _ => by simp [hrow]
  rw [this, List.map_const', List.length_range, List.sum_replicate, smul_eq_mul]
  ring

theorem foldr_max_pos (l : List ℕ) : 0 < l.foldr max 0 ↔ ∃ v ∈ l, 0 < v := by
  induction l with
  | nil => simp
  | cons a l ih =>
    rw [List.foldr_cons]
    constructor
    · intro h
      rcases lt_max_iff.mp h with h | h
      · exact ⟨a, List.mem_cons_self a l, h⟩
      · obtain ⟨v, hv, hvp⟩ := ih.mp h
        exact ⟨v, List.mem_cons_of_mem a hv, hvp⟩
    · rintro ⟨v, hv, hvp⟩
      rcases List.mem_cons.mp hv with rfl | hv
      · exact lt_max_iff.mpr (Or.inl hvp)
      · exact lt_max_iff.mpr (Or.inr (ih.mpr ⟨v, hv, hvp⟩))

theorem hMax_pos_iff_hasInk (img : ImageData) :
    (0 < ((List.range img.height).map fun y =>
        ((List.range img.width).filter fun x => CharSegmentation.isFg img x y).length).foldr
          max 0)
      ↔ hasInk img = true := by
  rw [foldr_max_pos, hasInk, List.any_eq_true]
  constructor
  · rintro ⟨v, hv, hvp⟩
    simp only [List.mem_map] at hv
    obtain ⟨y, hy, hvy⟩ := hv
    refine ⟨y, hy, ?_⟩
    rw [List.any_eq_true]
    rw [← hvy] at hvp
    rw [List.length_pos] at hvp
    obtain ⟨x, hx⟩ := List.exists_mem_of_ne_nil _ hvp
    exact ⟨x, (List.mem_filter.mp hx).1, (List.mem_filter.mp hx).2⟩
  · rintro ⟨y, hy, hys⟩
    rw [List.any_eq_true] at hys
    obtain ⟨x, hx, hfg⟩ := hys
    refine ⟨((List.range img.width).filter fun x => CharSegmentation.isFg img x y).length,
      List.mem_map.mpr ⟨y, hy, rfl⟩, ?_⟩
    rw [List.length_pos]
    intro hnil
    have : x ∈ (List.range img.width).filter fun x => CharSegmentation.isFg img x y :=
      List.mem_filter.mpr ⟨hx, hfg⟩
    rw [hnil] at this
    exact List.not_mem_nil x this

theorem vMax_pos_iff_hasInk (img : ImageData) :
    (0 < ((List.range img.width).map fun x =>
        ((List.range img.height).filter fun y => CharSegmentation.isFg img x y).length).foldr
          max 0)
      ↔ hasInk img = true := by
  rw [foldr_max_pos, hasInk, List.any_eq_true]
  constructor
  · rintro ⟨v, hv, hvp⟩
    simp only [List.mem_map] at hv
    obtain ⟨x, hx, hvx⟩ := hv
    rw [← hvx, List.length_pos] at hvp
    obtain ⟨y, hy⟩ := List.exists_mem_of_ne_nil _ hvp
    refine ⟨y, (List.mem_filter.mp hy).1, ?_⟩
    rw [List.any_eq_true]
    exact ⟨x, hx, (List.mem_filter.mp hy).2⟩
  · rintro ⟨y, hy, hys⟩
    rw [List.any_eq_true] at hys
    obtain ⟨x, hx, hfg⟩ := hys
    refine ⟨((List.range img.height).filter fun y => CharSegmentation.isFg img x y).length,
      List.mem_map.mpr ⟨x, hx, rfl⟩, ?_⟩
    rw [List.length_pos]
    intro hnil
    have : y ∈ (List.range img.height).filter fun y => CharSegmentation.isFg img x y :=
      List.mem_filter.mpr ⟨hy, hfg⟩
    rw [hnil] at this
    exact List.not_mem_nil y this

theorem extractProjectionFeatures_length (img : ImageData) :
    (extractProjectionFeatures img).length
      = if hasInk img then img.height + img.width else 0 := by
  rw [extractProjectionFeatures]
  by_cases h : hasInk img = true
  · rw [if_pos ((hMax_pos_iff_hasInk img).mpr h), if_pos ((vMax_pos_iff_hasInk img).mpr h),
      if_pos h]
    simp only [List.length_append, List.length_map, List.length_range]
  · rw [if_neg fun hc => h ((hMax_pos_iff_hasInk img).mp hc),
      if_neg fun hc => h ((vMax_pos_iff_hasInk img).mp hc), if_neg h]
    simp

theorem extractContourFeatures_length (img : ImageData) :
    (extractContourFeatures img).length = 5 := rfl

/-- The arity of `extractAllFeatures` as a function of the buffer: HOG
contributes `9·ceil(h/8)·ceil(w/8)`, the projections `h + w` when the
buffer has any foreground pixel and nothing otherwise, the contour part a
constant 5. -/
theorem allFeaturesLengthFormula (grad : ℤ → ℤ → Fin 9 × ℚ) (img : ImageData) :
    (extractAllFeatures grad img).length
      = 9 * ((img.height + 7) / 8) * ((img.width + 7) / 8)
        + (if hasInk img then img.height + img.width else 0) + 5 := by
  rw [extractAllFeatures, List.length_append, List.length_append,
    extractHOGFeatures_length, extractProjectionFeatures_length,
    extractContourFeatures_length]
  norm_num

/-- Claim C4 (amended): the feature-vector arity is not fixed by the
configuration; it depends on the buffer's dimensions and content as
`9·ceil(h/8)·ceil(w/8) + (h + w if any foreground pixel exists, else 0)
+ 5`, for every orientation-binning map. -/
theorem extractAllFeatures_arity (grad : ℤ → ℤ → Fin 9 × ℚ) (img : ImageData) :
    (extractAllFeatures grad img).length
      = 9 * ((img.height + 7) / 8) * ((img.width + 7) / 8)
        + (if hasInk img then img.height + img.width else 0) + 5 :=
  allFeaturesLengthFormula grad img

/-- Counterexample to claim C4 as stated: two all-ink buffers, 1×1 and
2×1, get feature vectors of lengths 16 and 17 respectively — the arity
varies with the image dimensions. -/
theorem extractAllFeatures_arity_counterexample :
    (extractAllFeatures (fun _ _ => ((0 : Fin 9), (0 : ℚ)))
        ⟨1, 1, [0, 0, 0, 255]⟩).length
      ≠ (extractAllFeatures (fun _ _ => ((0 : Fin 9), (0 : ℚ)))
        ⟨2, 1, [0, 0, 0, 255, 0, 0, 0, 255]⟩).length := by
  rw [allFeaturesLengthFormula, allFeaturesLengthFormula]
  have h1 : hasInk ⟨1, 1, [0, 0, 0, 255]⟩ = true := by decide
  have h2 : hasInk ⟨2, 1, [0, 0, 0, 255, 0, 0, 0, 255]⟩ = true := by decide
  rw [h1, h2]
  decide

end FeatureExtractor

/-- Mirror of `EnhancedOCRResult` (a `CharacterItem` enriched with
segmentation/ML fields); the bbox is flattened into `x, y, width,
height`. -/
structure EnhancedOCRResult where
  id : String
  char : String
  x : ℚ
  y : ℚ
  width : ℚ
  height : ℚ
  confidence : ℚ
  segmentationScore : ℚ
  mlConfidence : ℚ
  clusterId : Option ℕ
deriving DecidableEq

/-- A default result record (used only as the `getD` fallback). -/
def blankResult : EnhancedOCRResult :=
  ⟨"", "", 0, 0, 0, 0, 0, 0, 0, none⟩

namespace EnhancedOCREngine

/-- The members of cluster `c`, in result order — exactly the groups the
source builds in its `Map<number, EnhancedOCRResult[]>` (pushing in
iteration order). -/
def clusterMembers (results : List EnhancedOCRResult) (c : ℕ) :
    List EnhancedOCRResult :=
  results.filter fun s => decide (s.clusterId = some c)

/-- One increment of the `Map<string, number>` character counter:
insertion order is preserved, a fresh key is appended. -/
def bumpCount (counts : List (String × ℕ)) (ch : String) : List (String × ℕ) :=
  match counts with
  | [] => [(ch, 1)]
  | (k, n) :: rest =>
    if k = ch then (k, n + 1) :: rest else (k, n) :: bumpCount rest ch

/-- The character-count map of a cluster (`charCounts`). -/
def charCounts (cluster : List EnhancedOCRResult) : List (String × ℕ) :=
  cluster.foldl (fun cc r => bumpCount cc r.char) []

/-- Character counts of a plain string list (the same fold, used for
reasoning). -/
def countsOf (l : List String) : List (String × ℕ) :=
  l.foldl bumpCount []

/-- The `maxCount`/`mostCommonChar` scan: strict `>` keeps the first
maximum, starting from `(0, "")`. -/
def scanStep (st : ℕ × String) (p : String × ℕ) : ℕ × String :=
  if st.1 < p.2 then (p.2, p.1) else st

/-- `(maxCount, mostCommonChar)` of a count map. -/
def mostCommonScan (counts : List (String × ℕ)) : ℕ × String :=
  counts.foldl scanStep (0, "")

/-- The per-member correction of `clusterBasedCorrection`: clusters of
fewer than 2 members are skipped; when `maxCount > cluster.length / 2`, a
member whose character differs from the most common one and whose
confidence is below 50 takes the majority character and has its
`mlConfidence` raised to at least 0.6. -/
def correctItem (cluster : List EnhancedOCRResult) (r : EnhancedOCRResult) :
    EnhancedOCRResult :=
  if cluster.length < 2 then r
  else
    let mc := mostCommonScan (charCounts cluster)
    if (cluster.length : ℚ) / 2 < (mc.1 : ℚ) then
      if r.char ≠ mc.2 ∧ r.confidence < 50 then
        { r with char := mc.2, mlConfidence := max r.mlConfidence (3 / 5) }
      else r
    else r

/-- `EnhancedOCREngine.clusterBasedCorrection`.  The source groups the
results by `clusterId` into a `Map`, then mutates the members of each
cluster in place.  The clusters are disjoint (each result carries at most
one `clusterId`) and within one cluster the counting loop completes
before any member is mutated, so each result's update depends only on
the original members of its own cluster; the in-place pass is therefore
modelled pointwise.  Results without a `clusterId` are untouched. -/
def clusterBasedCorrection (results : List EnhancedOCRResult) :
    List EnhancedOCRResult :=
  results.map fun r =>
    match r.clusterId with
    | none => r
    | some c => correctItem (clusterMembers results c) r

/-- Claim-side notion (C1, following the claim's words): the character
holding a strict majority of a cluster — occurring in strictly more than
half of the members — if any.  Such a character is unique when it
exists. -/
def strictMajorityChar (cluster : List EnhancedOCRResult) : Option String :=
  (cluster.map fun r => r.char).find? fun ch =>
    decide (cluster.length < 2 * ((cluster.map fun r => r.char).count ch))

/-- Claim-side per-member correction rule (C1, following the claim's
words): replace the character by the cluster's strict-majority character
exactly when one exists, the member's character differs from it and the
member's confidence is below 50, raising `mlConfidence` to at least 0.6;
leave every other member unchanged. -/
def claimCorrect (results : List EnhancedOCRResult) (r : EnhancedOCRResult) :
    EnhancedOCRResult :=
  match r.clusterId with
  | none => r
  | some c =>
    match strictMajorityChar (clusterMembers results c) with
    | some m =>
      if r.char ≠ m ∧ r.confidence < 50 then
        { r with char := m, mlConfidence := max r.mlConfidence (3 / 5) }
      else r
    | none => r

/-- Invariant tying a counting accumulator to the prefix `pre` already
processed: keys are distinct, every entry holds the exact occurrence
count of its key, and every processed character has an entry. -/
def CountsInv (pre : List String) (acc : List (String × ℕ)) : Prop :=
  (acc.map Prod.fst).Nodup
  ∧ (∀ p ∈ acc, p.2 = pre.count p.1 ∧ 0 < p.2)
  ∧ (∀ ch ∈ pre, ∃ n, (ch, n) ∈ acc)

theorem bumpCount_keys (ch : String) :
    ∀ acc : List (String × ℕ),
      (bumpCount acc ch).map Prod.fst
        = if ch ∈ acc.map Prod.fst then acc.map Prod.fst
          else acc.map Prod.fst ++ [ch] := by
  intro acc
  induction acc with
  | nil => simp [bumpCount]
  | cons p rest ih =>
    obtain ⟨k, n⟩ := p
    by_cases hk : k = ch
    · subst hk
      simp [bumpCount]
    · rw [show bumpCount ((k, n) :: rest) ch = (k, n) :: bumpCount rest ch by
        simp [bumpCount, hk]]
      by_cases hmem : ch ∈ rest.map Prod.fst
      · simp [ih, hmem, hk, Ne.symm hk]
      · simp [ih, hmem, hk, Ne.symm hk]

theorem bumpCount_preserves (ch : String) :
    ∀ (pre : List String) (acc : List (String × ℕ)),
      CountsInv pre acc → CountsInv (pre ++ [ch]) (bumpCount acc ch) := by
  intro pre acc h
  obtain ⟨hnd, hval, hmem⟩ := h
  have hcount : ∀ x : String, (pre ++ [ch]).count x
      = pre.count x + if x = ch then 1 else 0 := by
    intro x
    rw [List.count_append]
    by_cases hx : x = ch
    · subst hx; simp
    · simp [List.count_singleton, hx]
  refine ⟨?_, ?_, ?_⟩
  · rw [bumpCount_keys]
    by_cases hmem' : ch ∈ acc.map Prod.fst
    · simp [hmem', hnd]
    · simp only [hmem', if_false]
      rw [List.nodup_append]
      exact ⟨hnd, List.nodup_singleton ch, by simpa using hmem'⟩
  · -- values after a bump
    have : ∀ acc' : List (String × ℕ),
        (acc'.map Prod.fst).Nodup →
        (∀ p ∈ acc', p.2 = pre.count p.1 ∧ 0 < p.2) →
        ((¬ ∃ n, (ch, n) ∈ acc') → pre.count ch = 0) →
        ∀ p ∈ bumpCount acc' ch,
          p.2 = (pre ++ [ch]).count p.1 ∧ 0 < p.2 := by
      intro acc'
      induction acc' with
      | nil =>
        intro _ _ hnone p hp
        simp only [bumpCount, List.mem_singleton] at hp
        subst hp
        have h0 : pre.count ch = 0 := hnone (by simp)
        simp [hcount, h0]
      | cons q rest ih =>
        intro hnd' hval' hnone p hp
        obtain ⟨k, n⟩ := q
        by_cases hk : k = ch
        · rw [show bumpCount ((k, n) :: rest) ch = (k, n + 1) :: rest from by
            simp [bumpCount, hk]] at hp
          rcases List.mem_cons.mp hp with rfl | hp'
          · have := hval' (k, n) (List.mem_cons_self _ _)
            simp only at this ⊢
            refine ⟨?_, by omega⟩
            rw [hcount]
            simp [hk, this.1]
          · have hv := hval' p (List.mem_cons_of_mem _ hp')
            have hkey : p.1 ≠ k := by
              intro hcontra
              have : p.1 ∈ rest.map Prod.fst := List.mem_map.mpr ⟨p, hp', rfl⟩
              rw [hcontra] at this
              simp only [List.map_cons, List.nodup_cons] at hnd'
              exact hnd'.1 this
            have hkch : p.1 ≠ ch := hk ▸ hkey
            refine ⟨?_, hv.2⟩
            rw [hcount]
            simp [hkch, hv.1]
        · rw [show bumpCount ((k, n) :: rest) ch = (k, n) :: bumpCount rest ch from by
            simp [bumpCount, hk]] at hp
          rcases List.mem_cons.mp hp with rfl | hp'
          · have := hval' (k, n) (List.mem_cons_self _ _)
            simp only at this ⊢
            refine ⟨?_, this.2⟩
            rw [hcount]
            simp [hk, this.1]
          · refine ih ?_ ?_ ?_ p hp'
            · simp only [List.map_cons, List.nodup_cons] at hnd'
              exact hnd'.2
            · intro q hq
              exact hval' q (List.mem_cons_of_mem _ hq)
            · intro hnone'
              refine hnone ?_
              rintro ⟨n', hn'⟩
              rcases List.mem_cons.mp hn' with heq | hn''
              · exact hk (congrArg Prod.fst heq).symm
              · exact hnone' ⟨n', hn''⟩
    refine this acc hnd hval ?_
    intro hnone
    by_cases hch : ch ∈ pre
    · obtain ⟨n, hn⟩ := hmem ch hch
      exact absurd ⟨n, hn⟩ hnone
    · exact List.count_eq_zero_of_not_mem hch
  · -- every processed character keeps an entry, and `ch` gains one
    have hkeysub : ∀ ch' n, (ch', n) ∈ acc → ∃ n', (ch', n') ∈ bumpCount acc ch := by
      intro ch' n hn
      have : ch' ∈ (bumpCount acc ch).map Prod.fst := by
        rw [bumpCount_keys]
        by_cases hmem' : ch ∈ acc.map Prod.fst
        · simp only [hmem', if_true]
          exact List.mem_map.mpr ⟨(ch', n), hn, rfl⟩
        · simp only [hmem', if_false]
          exact List.mem_append.mpr (Or.inl (List.mem_map.mpr ⟨(ch', n), hn, rfl⟩))
      obtain ⟨p, hp, hp1⟩ := List.mem_map.mp this
      have hpp : (p.1, p.2) ∈ bumpCount acc ch := by simpa using hp
      exact ⟨p.2, hp1 ▸ hpp⟩
    have hch : ∃ n', (ch, n') ∈ bumpCount acc ch := by
      have : ch ∈ (bumpCount acc ch).map Prod.fst := by
        rw [bumpCount_keys]
        by_cases hmem' : ch ∈ acc.map Prod.fst
        · simp [hmem']
        · simp [hmem']
      obtain ⟨p, hp, hp1⟩ := List.mem_map.mp this
      have hpp : (p.1, p.2) ∈ bumpCount acc ch := by simpa using hp
      exact ⟨p.2, hp1 ▸ hpp⟩
    intro ch' hch'
    rcases List.mem_append.mp hch' with hch'' | hch''
    · obtain ⟨n, hn⟩ := hmem ch' hch''
      exact hkeysub ch' n hn
    · rw [List.mem_singleton.mp hch'']
      exact hch

theorem countsOf_inv :
    ∀ (l pre : List String) (acc : List (String × ℕ)),
      CountsInv pre acc → CountsInv (pre ++ l) (l.foldl bumpCount acc) := by
  intro l
  induction l with
  | nil => intro pre acc h; simpa using h
  | cons ch l ih =>
    intro pre acc h
    have h1 := bumpCount_preserves ch pre acc h
    have h2 := ih (pre ++ [ch]) (bumpCount acc ch) h1
    simpa using h2

theorem countsOf_spec (l : List String) : CountsInv l (countsOf l) := by
  have := countsOf_inv l [] [] ⟨List.nodup_nil, by simp, by simp⟩
  simpa [countsOf] using this

theorem charCounts_eq_countsOf (cluster : List EnhancedOCRResult) :
    charCounts cluster = countsOf (cluster.map fun r => r.char) := by
  rw [charCounts, countsOf, List.foldl_map]

end EnhancedOCREngine

namespace EnhancedOCREngine

theorem scan_stays :
    ∀ (cs : List (String × ℕ)) (st : ℕ × String),
      (∀ p ∈ cs, p.2 ≤ st.1) → cs.foldl scanStep st = st := by
  intro cs
  induction cs with
  | nil => intro st _; rfl
  | cons p rest ih =>
    intro st h
    rw [List.foldl_cons]
    have hp : p.2 ≤ st.1 := h p (List.mem_cons_self _ _)
    rw [show scanStep st p = st from by
      simp [scanStep, Nat.not_lt_of_le hp]]
    exact ih st fun q hq => h q (List.mem_cons_of_mem _ hq)

theorem scan_hits :
    ∀ (cs : List (String × ℕ)) (st : ℕ × String) (m : String) (cm : ℕ),
      (m, cm) ∈ cs →
      (∀ p ∈ cs, p.1 = m → p.2 = cm) →
      (∀ p ∈ cs, p.1 ≠ m → p.2 < cm) →
      st.1 < cm → cs.foldl scanStep st = (cm, m) := by
  intro cs
  induction cs with
  | nil => intro st m cm h; cases h
  | cons p rest ih =>
    intro st m cm hmem hkey hlt hst
    rw [List.foldl_cons]
    by_cases hp : p.1 = m
    · have hpv : p.2 = cm := hkey p (List.mem_cons_self _ _) hp
      rw [show scanStep st p = (cm, m) from by
        simp [scanStep, hpv ▸ hst, ← hp, ← hpv]]
      exact scan_stays rest (cm, m) fun q hq => by
        by_cases hq1 : q.1 = m
        · exact le_of_eq (hkey q (List.mem_cons_of_mem _ hq) hq1)
        · exact le_of_lt (hlt q (List.mem_cons_of_mem _ hq) hq1)
    · have hmem' : (m, cm) ∈ rest := by
        rcases List.mem_cons.mp hmem with heq | h
        · exact absurd (congrArg Prod.fst heq).symm hp
        · exact h
      have hst' : (scanStep st p).1 < cm := by
        rw [scanStep]
        by_cases hc : st.1 < p.2
        · simp only [if_pos hc]
          exact hlt p (List.mem_cons_self _ _) hp
        · simp only [if_neg hc]
          exact hst
      exact ih (scanStep st p) m cm hmem'
        (fun q hq => hkey q (List.mem_cons_of_mem _ hq))
        (fun q hq => hlt q (List.mem_cons_of_mem _ hq)) hst'

theorem scan_result :
    ∀ (cs : List (String × ℕ)) (st : ℕ × String),
      cs.foldl scanStep st = st ∨ ∃ p ∈ cs, cs.foldl scanStep st = (p.2, p.1) := by
  intro cs
  induction cs with
  | nil => intro st; exact Or.inl rfl
  | cons p rest ih =>
    intro st
    rw [List.foldl_cons, scanStep]
    by_cases hc : st.1 < p.2
    · simp only [if_pos hc]
      rcases ih (p.2, p.1) with h | ⟨q, hq, h⟩
      · exact Or.inr ⟨p, List.mem_cons_self _ _, h⟩
      · exact Or.inr ⟨q, List.mem_cons_of_mem _ hq, h⟩
    · simp only [if_neg hc]
      rcases ih st with h | ⟨q, hq, h⟩
      · exact Or.inl h
      · exact Or.inr ⟨q, List.mem_cons_of_mem _ hq, h⟩

theorem count_add_count_le (l : List String) (a b : String) (hab : a ≠ b) :
    l.count a + l.count b ≤ l.length := by
  induction l with
  | nil => simp
  | cons x l ih =>
    simp only [List.count_cons, List.length_cons, beq_iff_eq]
    split_ifs
    any_goals omega
    exact absurd ((‹x = a›).symm.trans ‹x = b›) hab

/-- The source's per-member correction equals the claim's rule for every
member of the cluster. -/
theorem correctItem_eq_claim (cluster : List EnhancedOCRResult)
    (r : EnhancedOCRResult) (hr : r ∈ cluster) :
    correctItem cluster r
      = match strictMajorityChar cluster with
        | some m =>
          if r.char ≠ m ∧ r.confidence < 50 then
            { r with char := m, mlConfidence := max r.mlConfidence (3 / 5) }
          else r
        | none => r := by
  obtain ⟨hnd, hval, hkeys⟩ :
      CountsInv (cluster.map fun s => s.char) (charCounts cluster) := by
    rw [charCounts_eq_countsOf]
    exact countsOf_spec _
  cases hmaj : strictMajorityChar cluster with
  | none =>
    -- no character reaches a strict majority: the `maxCount` guard fails.
    have hnomaj : ∀ ch ∈ cluster.map fun s => s.char,
        ¬ cluster.length < 2 * ((cluster.map fun s => s.char).count ch) := by
      intro ch hch hcount
      have := List.find?_eq_none.mp hmaj ch hch
      simp only [decide_eq_true_eq] at this
      exact this hcount
    rw [correctItem]
    by_cases hlen : cluster.length < 2
    · rw [if_pos hlen]
    · rw [if_neg hlen]
      have hbound : 2 * (mostCommonScan (charCounts cluster)).1 ≤ cluster.length := by
        rcases scan_result (charCounts cluster) (0, "") with h | ⟨p, hp, h⟩
        · rw [mostCommonScan, h]
          omega
        · rw [mostCommonScan, h]
          have hv := hval p hp
          have hmem : p.1 ∈ cluster.map fun s => s.char := by
            have : 0 < (cluster.map fun s => s.char).count p.1 := hv.1 ▸ hv.2
            exact List.count_pos_iff.mp this
          have := hnomaj p.1 hmem
          simp only [hv.1] at *
          omega
      have hguard : ¬ ((cluster.length : ℚ) / 2
          < ((mostCommonScan (charCounts cluster)).1 : ℚ)) := by
        rw [div_lt_iff₀ (by norm_num : (0:ℚ) < 2), not_lt]
        have : ((2 * (mostCommonScan (charCounts cluster)).1 : ℕ) : ℚ)
            ≤ ((cluster.length : ℕ) : ℚ) := by
          exact_mod_cast hbound
        push_cast at this
        linarith
      simp only [if_neg hguard]
  | some m =>
    have hfind := List.find?_some hmaj
    have hmmem : m ∈ cluster.map fun s => s.char := List.mem_of_find?_eq_some hmaj
    simp only [decide_eq_true_eq] at hfind
    -- `m` occurs in strictly more than half of the members
    have hmcount : cluster.length < 2 * ((cluster.map fun s => s.char).count m) :=
      hfind
    rw [correctItem]
    by_cases hlen : cluster.length < 2
    · -- a singleton cluster: its only character is `m`, so the claim rule
      -- also leaves the member unchanged.
      rw [if_pos hlen]
      have hlen1 : cluster.length = 1 := by
        have : 0 < cluster.length := List.length_pos.mpr (by
          intro hnil
          rw [hnil] at hr
          exact List.not_mem_nil r hr)
        omega
      obtain ⟨a, ha⟩ := List.length_eq_one.mp hlen1
      rw [ha] at hr hmmem
      have hra : r = a := List.mem_singleton.mp hr
      simp only [List.map_cons, List.map_nil, List.mem_singleton] at hmmem
      have : ¬ (r.char ≠ m ∧ r.confidence < 50) := by
        intro ⟨hne, _⟩
        exact hne (hra ▸ hmmem.symm)
      exact (if_neg this).symm
    · rw [if_neg hlen]
      -- the scan finds exactly `(count m, m)`
      have hscan : mostCommonScan (charCounts cluster)
          = ((cluster.map fun s => s.char).count m, m) := by
        obtain ⟨n, hn⟩ := hkeys m hmmem
        have hnval := hval (m, n) hn
        simp only at hnval
        have hcm_pos : 0 < (cluster.map fun s => s.char).count m :=
          List.count_pos_iff.mpr hmmem
        refine scan_hits (charCounts cluster) (0, "") m _ ?_ ?_ ?_ hcm_pos
        · rw [← hnval.1]
          exact hnval.1 ▸ hn
        · intro p hp hpm
          have := (hval p hp).1
          rw [this, hpm]
        · intro p hp hpm
          have hv := hval p hp
          have hpmem : p.1 ∈ cluster.map fun s => s.char :=
            List.count_pos_iff.mp (hv.1 ▸ hv.2)
          have hsum := count_add_count_le (cluster.map fun s => s.char) p.1 m hpm
          rw [List.length_map] at hsum
          rw [hv.1]
          omega
      rw [hscan]
      have hguard : (cluster.length : ℚ) / 2
          < (((cluster.map fun s => s.char).count m : ℕ) : ℚ) := by
        rw [div_lt_iff₀ (by norm_num : (0:ℚ) < 2)]
        have : ((cluster.length : ℕ) : ℚ)
            < ((2 * (cluster.map fun s => s.char).count m : ℕ) : ℚ) := by
          exact_mod_cast hmcount
        push_cast at this
        linarith
      simp only [if_pos hguard]

/-- Claim C1: `clusterBasedCorrection` preserves the result-list length,
and each entry is transformed exactly by the claim's rule
(`claimCorrect`): the character becomes the cluster's strict-majority
character precisely when such a character exists (it occurs in strictly
more than half of the cluster), the member's character differs from it
and the member's OCR confidence is below 50 — in which case
`mlConfidence` rises to `max mlConfidence 0.6 ≥ 0.6` — and every other
member (including every member of a cluster without a strict majority,
every member whose character already agrees, every member with
confidence ≥ 50, and every result without a cluster id) is returned
completely unchanged. -/
theorem clusterCorrection_spec (results : List EnhancedOCRResult) :
    (clusterBasedCorrection results).length = results.length
    ∧ ∀ i, i < results.length →
        (clusterBasedCorrection results).getD i blankResult
          = claimCorrect results (results.getD i blankResult) := by
  constructor
  · rw [clusterBasedCorrection, List.length_map]
  · intro i hi
    have hget : results.getD i blankResult = results[i] :=
      List.getD_eq_getElem results blankResult hi
    have hi' : i < (clusterBasedCorrection results).length := by
      rw [clusterBasedCorrection, List.length_map]
      exact hi
    have hgetc : (clusterBasedCorrection results).getD i blankResult
        = (clusterBasedCorrection results)[i] :=
      List.getD_eq_getElem _ blankResult hi'
    rw [hgetc, hget]
    simp only [clusterBasedCorrection, List.getElem_map]
    set r := results[i] with hr
    have hrres : r ∈ results := by
      rw [hr]
      exact List.getElem_mem hi
    have key : ∀ oc : Option ℕ, oc = r.clusterId →
        (match oc with
          | none => r
          | some c => correctItem (clusterMembers results c) r)
        = (match oc with
          | none => r
          | some c =>
            match strictMajorityChar (clusterMembers results c) with
            | some m =>
              if r.char ≠ m ∧ r.confidence < 50 then
                { r with char := m, mlConfidence := max r.mlConfidence (3 / 5) }
              else r
            | none => r) := by
      intro oc hoc
      cases oc with
      | none => rfl
      | some c =>
        have hrmem : r ∈ clusterMembers results c := by
          rw [clusterMembers, List.mem_filter]
          exact ⟨hrres, by simp [← hoc]⟩
        exact correctItem_eq_claim (clusterMembers results c) r hrmem
    rw [claimCorrect]
    exact key r.clusterId rfl

/-- Witness for `clusterCorrection_spec` on a concrete two-member
cluster. -/
theorem clusterCorrection_spec_witness :
    (clusterBasedCorrection [⟨"a", "A", 0, 0, 1, 1, 30, 0, 0, some 0⟩,
        ⟨"b", "A", 1, 0, 1, 1, 90, 0, 0, some 0⟩]).getD 0 blankResult
      = claimCorrect [⟨"a", "A", 0, 0, 1, 1, 30, 0, 0, some 0⟩,
          ⟨"b", "A", 1, 0, 1, 1, 90, 0, 0, some 0⟩]
          ([⟨"a", "A", 0, 0, 1, 1, 30, 0, 0, some 0⟩,
            ⟨"b", "A", 1, 0, 1, 1, 90, 0, 0, some 0⟩].getD 0 blankResult) :=
  (clusterCorrection_spec _).2 0 (by decide)

end EnhancedOCREngine

namespace EnhancedOCREngine

/-- Reading order used by `contextBasedCorrection`'s comparator
(`a` sorts no later than `b`): rows more than 20 pixels apart compare by
`y`, otherwise by `x` (row-major with a 20-pixel row tolerance). -/
def readingLe (a b : EnhancedOCRResult) : Prop :=
  if 20 < |a.y - b.y| then a.y ≤ b.y else a.x ≤ b.x

instance : DecidableRel readingLe := fun a b => by
  unfold readingLe
  infer_instance

/-- Reading order on index-tagged results (the tag stands for a JS object
reference: the sorted copy shares its elements with the original
array). -/
def readingLeIdx (a b : ℕ × EnhancedOCRResult) : Prop :=
  readingLe a.2 b.2

instance : DecidableRel readingLeIdx := fun a b => by
  unfold readingLeIdx
  infer_instance

/-- Tag each result with its position in the original array. -/
def withIdx : ℕ → List EnhancedOCRResult → List (ℕ × EnhancedOCRResult)
  | _, [] => []
  | n, r :: rest => (n, r) :: withIdx (n + 1) rest

/-- The body of the context pass: when the previous (already-updated)
entry has the same character and both confidences are below 40, the
current entry's confidence drops by 20 with a floor of 0; otherwise the
entry is untouched. -/
def ctxUpd (prev curr : EnhancedOCRResult) : EnhancedOCRResult :=
  if prev.char = curr.char ∧ prev.confidence < 40 ∧ curr.confidence < 40 then
    { curr with confidence := max 0 (curr.confidence - 20) }
  else curr

/-- The `for (i = 1; …)` loop of `contextBasedCorrection`: walk the
sorted sequence left to right, carrying the previous (possibly already
updated) entry. -/
def ctxGo (prev : ℕ × EnhancedOCRResult) :
    List (ℕ × EnhancedOCRResult) → List (ℕ × EnhancedOCRResult)
  | [] => []
  | curr :: rest =>
    (curr.1, ctxUpd prev.2 curr.2) :: ctxGo (curr.1, ctxUpd prev.2 curr.2) rest

/-- The context pass over the sorted sequence (the first entry is never
modified). -/
def ctxPass : List (ℕ × EnhancedOCRResult) → List (ℕ × EnhancedOCRResult)
  | [] => []
  | h :: t => h :: ctxGo h t

/-- `EnhancedOCREngine.contextBasedCorrection`.  The source sorts a copy
of `results` with the reading-order comparator (ES2019
`Array.prototype.sort` is stable; modelled by a stable insertion sort)
and mutates the shared entries through the copy, so the original array
keeps its order while its entries' confidences change.  Object identity
is modelled by tagging each entry with its original index, running the
pass over the sorted tagged list, and reading each original position's
updated entry back. -/
def contextBasedCorrection (results : List EnhancedOCRResult) :
    List EnhancedOCRResult :=
  let sorted := (withIdx 0 results).insertionSort readingLeIdx
  let updated := ctxPass sorted
  (List.range results.length).map fun i =>
    ((updated.find? fun p => decide (p.1 = i)).map Prod.snd).getD blankResult

/-- Claim-side confidence rule (C2, following the claim's words): in the
reading-order sequence, an entry's confidence is reduced by 20 (floored
at 0) exactly when it has a predecessor with the identical character and
both entries' (pre-pass) confidences are below 40. -/
def claimCtxConf (sorted : List EnhancedOCRResult) (j : ℕ) : ℚ :=
  let curr := sorted.getD j blankResult
  if 0 < j ∧ (sorted.getD (j - 1) blankResult).char = curr.char
      ∧ (sorted.getD (j - 1) blankResult).confidence < 40
      ∧ curr.confidence < 40
  then max 0 (curr.confidence - 20) else curr.confidence

/-- The predecessor-only form of the loop: each entry is updated against
its original predecessor (no carry).  Equivalent to `ctxGo` because an
update never changes the character and never moves a confidence across
the 40 threshold. -/
def ruleGo (prev : ℕ × EnhancedOCRResult) :
    List (ℕ × EnhancedOCRResult) → List (ℕ × EnhancedOCRResult)
  | [] => []
  | curr :: rest => (curr.1, ctxUpd prev.2 curr.2) :: ruleGo curr rest

theorem ctxUpd_char (prev curr : EnhancedOCRResult) :
    (ctxUpd prev curr).char = curr.char := by
  rw [ctxUpd]
  split_ifs <;> rfl

theorem ctxUpd_conf_lt (prev curr : EnhancedOCRResult) :
    ((ctxUpd prev curr).confidence < 40 ↔ curr.confidence < 40) := by
  rw [ctxUpd]
  split_ifs with h
  · simp only
    constructor
    · intro _; exact h.2.2
    · intro hc
      rw [max_lt_iff]
      constructor
      · norm_num
      · linarith
  · exact Iff.rfl

theorem ctxUpd_congr (p q curr : EnhancedOCRResult)
    (hchar : p.char = q.char) (hconf : p.confidence < 40 ↔ q.confidence < 40) :
    ctxUpd p curr = ctxUpd q curr := by
  rw [ctxUpd, ctxUpd]
  have : (p.char = curr.char ∧ p.confidence < 40 ∧ curr.confidence < 40)
      ↔ (q.char = curr.char ∧ q.confidence < 40 ∧ curr.confidence < 40) := by
    rw [hchar]
    constructor
    · rintro ⟨h1, h2, h3⟩; exact ⟨h1, hconf.mp h2, h3⟩
    · rintro ⟨h1, h2, h3⟩; exact ⟨h1, hconf.mpr h2, h3⟩
  rw [if_congr this rfl rfl]

theorem ctxUpd_record (prev curr : EnhancedOCRResult) :
    ctxUpd prev curr
      = { curr with confidence :=
          (if prev.char = curr.char ∧ prev.confidence < 40 ∧ curr.confidence < 40
            then max 0 (curr.confidence - 20) else curr.confidence) } := by
  rw [ctxUpd]
  split_ifs <;> rfl

theorem ctxGo_eq_ruleGo :
    ∀ (t : List (ℕ × EnhancedOCRResult)) (prev prev₀ : ℕ × EnhancedOCRResult),
      prev.2.char = prev₀.2.char →
      (prev.2.confidence < 40 ↔ prev₀.2.confidence < 40) →
      ctxGo prev t = ruleGo prev₀ t := by
  intro t
  induction t with
  | nil => intro _ _ _ _; rfl
  | cons curr rest ih =>
    intro prev prev₀ hchar hconf
    rw [ctxGo, ruleGo]
    have hupd : ctxUpd prev.2 curr.2 = ctxUpd prev₀.2 curr.2 :=
      ctxUpd_congr _ _ _ hchar hconf
    rw [hupd]
    congr 1
    refine ih _ _ ?_ ?_
    · exact ctxUpd_char _ _
    · exact ctxUpd_conf_lt _ _

theorem ruleGo_eq_zipWith :
    ∀ (t : List (ℕ × EnhancedOCRResult)) (prev : ℕ × EnhancedOCRResult),
      ruleGo prev t
        = List.zipWith (fun p c => (c.1, ctxUpd p.2 c.2)) (prev :: t) t := by
  intro t
  induction t with
  | nil => intro prev; rfl
  | cons curr rest ih =>
    intro prev
    rw [ruleGo, List.zipWith_cons_cons, ih]

theorem ctxPass_cons (h : ℕ × EnhancedOCRResult)
    (t : List (ℕ × EnhancedOCRResult)) :
    ctxPass (h :: t) = h :: ruleGo h t := by
  rw [ctxPass]
  congr 1
  exact ctxGo_eq_ruleGo t h h rfl Iff.rfl

theorem ruleGo_fst :
    ∀ (t : List (ℕ × EnhancedOCRResult)) (prev : ℕ × EnhancedOCRResult),
      (ruleGo prev t).map Prod.fst = t.map Prod.fst := by
  intro t
  induction t with
  | nil => intro prev; rfl
  | cons curr rest ih =>
    intro prev
    rw [ruleGo, List.map_cons, List.map_cons, ih]

theorem ctxPass_fst (s : List (ℕ × EnhancedOCRResult)) :
    (ctxPass s).map Prod.fst = s.map Prod.fst := by
  cases s with
  | nil => rfl
  | cons h t =>
    rw [ctxPass_cons, List.map_cons, List.map_cons, ruleGo_fst]

theorem ctxPass_length (s : List (ℕ × EnhancedOCRResult)) :
    (ctxPass s).length = s.length := by
  have := congrArg List.length (ctxPass_fst s)
  simpa using this

theorem ctxPass_get_zero (s : List (ℕ × EnhancedOCRResult)) :
    (ctxPass s)[0]? = s[0]? := by
  cases s with
  | nil => rfl
  | cons h t => rw [ctxPass_cons]; simp

theorem ctxPass_get_succ (s : List (ℕ × EnhancedOCRResult)) (j : ℕ) :
    (ctxPass s)[j + 1]?
      = match s[j]?, s[j + 1]? with
        | some p, some c => some (c.1, ctxUpd p.2 c.2)
        | _, _ => none := by
  cases s with
  | nil => rfl
  | cons h t =>
    rw [ctxPass_cons, ruleGo_eq_zipWith, List.getElem?_cons_succ,
      List.getElem?_zipWith, List.getElem?_cons_succ]
    cases (h :: t)[j]? <;> cases t[j]? <;> rfl

end EnhancedOCREngine

namespace EnhancedOCREngine

theorem withIdx_length : ∀ (l : List EnhancedOCRResult) (n : ℕ),
    (withIdx n l).length = l.length := by
  intro l
  induction l with
  | nil => intro n; rfl
  | cons r rest ih =>
    intro n
    rw [withIdx, List.length_cons, List.length_cons, ih]

theorem withIdx_fst : ∀ (l : List EnhancedOCRResult) (n : ℕ),
    (withIdx n l).map Prod.fst = List.range' n l.length := by
  intro l
  induction l with
  | nil => intro n; rfl
  | cons r rest ih =>
    intro n
    rw [withIdx, List.map_cons, List.length_cons, List.range'_succ, ih]

theorem withIdx_snd : ∀ (l : List EnhancedOCRResult) (n : ℕ),
    (withIdx n l).map Prod.snd = l := by
  intro l
  induction l with
  | nil => intro n; rfl
  | cons r rest ih =>
    intro n
    rw [withIdx, List.map_cons, ih]

theorem withIdx_mem : ∀ (l : List EnhancedOCRResult) (n : ℕ)
    (p : ℕ × EnhancedOCRResult), p ∈ withIdx n l →
    ∃ j, j < l.length ∧ p.1 = n + j ∧ l[j]? = some p.2 := by
  intro l
  induction l with
  | nil => intro n p h; cases h
  | cons r rest ih =>
    intro n p h
    rw [withIdx] at h
    rcases List.mem_cons.mp h with rfl | h'
    · exact ⟨0, Nat.succ_pos _, by simp, by simp⟩
    · obtain ⟨j, hj, hk, hv⟩ := ih (n + 1) p h'
      refine ⟨j + 1, by simpa using Nat.succ_lt_succ hj, by omega, by simpa using hv⟩

/-- In a list with pairwise-distinct keys, looking up the key of the
`j`-th entry finds exactly the `j`-th entry. -/
theorem find_at_key :
    ∀ (l : List (ℕ × EnhancedOCRResult)) (j : ℕ) (hj : j < l.length),
      (l.map Prod.fst).Nodup →
      l.find? (fun p => decide (p.1 = (l[j]).1)) = some (l[j]) := by
  intro l
  induction l with
  | nil => intro j hj; cases (Nat.not_lt_zero j) hj
  | cons q rest ih =>
    intro j hj hnd
    cases j with
    | zero =>
      exact List.find?_cons_of_pos _ (by simp)
    | succ jp =>
      have hjp : jp < rest.length := by simpa using Nat.lt_of_succ_lt_succ hj
      have hne : q.1 ≠ ((q :: rest)[jp + 1]).1 := by
        intro hcontra
        simp only [List.map_cons, List.nodup_cons] at hnd
        refine hnd.1 ?_
        rw [hcontra]
        show ((q :: rest)[jp + 1]).1 ∈ rest.map Prod.fst
        rw [List.getElem_cons_succ]
        exact List.mem_map.mpr ⟨rest[jp], List.getElem_mem hjp, rfl⟩
      rw [List.find?_cons_of_neg _ (by simpa using hne)]
      rw [show ((q :: rest)[jp + 1]) = rest[jp] from List.getElem_cons_succ ..]
      refine ih jp hjp ?_
      simp only [List.map_cons, List.nodup_cons] at hnd
      exact hnd.2

/-- Positional characterization of the context pass: entry `j` of the
output carries entry `j` of the input with only its confidence replaced
by the claim's rule. -/
theorem ctxPass_getElem? (s : List (ℕ × EnhancedOCRResult)) (j : ℕ)
    (hj : j < s.length) :
    (ctxPass s)[j]? = some ((s[j]).1,
      { (s[j]).2 with confidence := claimCtxConf (s.map Prod.snd) j }) := by
  cases j with
  | zero =>
    have hconf0 : claimCtxConf (s.map Prod.snd) 0 = (s[0]).2.confidence := by
      rw [claimCtxConf]
      rw [if_neg (by simp)]
      rw [List.getD_eq_getElem _ _ (by simpa using hj), List.getElem_map]
    rw [ctxPass_get_zero, List.getElem?_eq_getElem hj, hconf0]
  | succ jp =>
    have hjp : jp < s.length := Nat.lt_of_succ_lt hj
    have hconfS : claimCtxConf (s.map Prod.snd) (jp + 1)
        = (if (s[jp]).2.char = (s[jp + 1]).2.char
              ∧ (s[jp]).2.confidence < 40
              ∧ (s[jp + 1]).2.confidence < 40
          then max 0 ((s[jp + 1]).2.confidence - 20)
          else (s[jp + 1]).2.confidence) := by
      rw [claimCtxConf]
      have e1 : (s.map Prod.snd).getD (jp + 1) blankResult = (s[jp + 1]).2 := by
        rw [List.getD_eq_getElem _ _ (by simpa using hj), List.getElem_map]
      have e2 : (s.map Prod.snd).getD (jp + 1 - 1) blankResult = (s[jp]).2 := by
        rw [show jp + 1 - 1 = jp from rfl]
        rw [List.getD_eq_getElem _ _ (by simpa using hjp), List.getElem_map]
      rw [e1, e2]
      have hiff : (0 < jp + 1 ∧ (s[jp]).2.char = (s[jp + 1]).2.char
            ∧ (s[jp]).2.confidence < 40 ∧ (s[jp + 1]).2.confidence < 40)
          ↔ ((s[jp]).2.char = (s[jp + 1]).2.char
            ∧ (s[jp]).2.confidence < 40
            ∧ (s[jp + 1]).2.confidence < 40) := by
        simp [Nat.succ_pos]
      exact if_congr hiff rfl rfl
    rw [ctxPass_get_succ, List.getElem?_eq_getElem hjp, List.getElem?_eq_getElem hj]
    show some ((s[jp + 1]).1, ctxUpd (s[jp]).2 (s[jp + 1]).2) = _
    rw [hconfS, ctxUpd_record]

/-- Claim C2: `contextBasedCorrection` preserves the number and order of
the results; each output entry equals the corresponding input entry with
only its confidence possibly changed; and, positionally in the
reading-order sequence, an entry's confidence is reduced by 20 (floored
at 0) exactly when the adjacent previous entry has the identical
character and both confidences are below 40 — every other entry keeps
its confidence, and no other field of any entry is modified. -/
theorem contextCorrection_spec (results : List EnhancedOCRResult) :
    (contextBasedCorrection results).length = results.length
    ∧ (∀ i, i < results.length → ∃ q : ℚ,
        (contextBasedCorrection results).getD i blankResult
          = { results.getD i blankResult with confidence := q })
    ∧ (∀ j, (hj : j < ((withIdx 0 results).insertionSort readingLeIdx).length) →
        (contextBasedCorrection results).getD
            ((((withIdx 0 results).insertionSort readingLeIdx)[j]).1) blankResult
          = { (((withIdx 0 results).insertionSort readingLeIdx)[j]).2 with
              confidence :=
                claimCtxConf
                  (((withIdx 0 results).insertionSort readingLeIdx).map Prod.snd)
                  j }) := by
  have hperm : ((withIdx 0 results).insertionSort readingLeIdx).Perm
      (withIdx 0 results) := List.perm_insertionSort _ _
  have hlen_s : ((withIdx 0 results).insertionSort readingLeIdx).length
      = results.length := by
    rw [hperm.length_eq, withIdx_length]
  have hnodup : (((withIdx 0 results).insertionSort readingLeIdx).map
      Prod.fst).Nodup := by
    refine ((hperm.map Prod.fst).symm).nodup ?_
    rw [withIdx_fst]
    exact List.nodup_range' _ _
  have hkey_lt : ∀ j (hj : j < ((withIdx 0 results).insertionSort
      readingLeIdx).length),
      ((((withIdx 0 results).insertionSort readingLeIdx)[j]).1)
        < results.length
      ∧ results[((((withIdx 0 results).insertionSort readingLeIdx)[j]).1)]?
          = some ((((withIdx 0 results).insertionSort readingLeIdx)[j]).2) := by
    intro j hj
    have hmem : (((withIdx 0 results).insertionSort readingLeIdx)[j])
        ∈ withIdx 0 results :=
      hperm.subset (List.getElem_mem hj)
    obtain ⟨k, hk, hkey, hval⟩ := withIdx_mem results 0 _ hmem
    rw [hkey]
    simpa using ⟨hk, hval⟩
  -- the third conjunct, proved first and reused for the second
  have hmain : ∀ j, (hj : j < ((withIdx 0 results).insertionSort
      readingLeIdx).length) →
      (contextBasedCorrection results).getD
          ((((withIdx 0 results).insertionSort readingLeIdx)[j]).1) blankResult
        = { (((withIdx 0 results).insertionSort readingLeIdx)[j]).2 with
            confidence :=
              claimCtxConf
                (((withIdx 0 results).insertionSort readingLeIdx).map Prod.snd)
                j } := by
    intro j hj
    have hidx := (hkey_lt j hj).1
    rw [contextBasedCorrection]
    rw [List.getD_eq_getElem _ _ (by simpa using hidx)]
    rw [List.getElem_map, List.getElem_range]
    have hju : j < (ctxPass ((withIdx 0 results).insertionSort
        readingLeIdx)).length := by
      rw [ctxPass_length]; exact hj
    have hufind : (ctxPass ((withIdx 0 results).insertionSort
        readingLeIdx)).find?
        (fun p => decide (p.1
          = ((((withIdx 0 results).insertionSort readingLeIdx)[j]).1)))
        = some ((ctxPass ((withIdx 0 results).insertionSort
            readingLeIdx))[j]) := by
      have hkeysu := ctxPass_fst ((withIdx 0 results).insertionSort readingLeIdx)
      have hkeyj : ((ctxPass ((withIdx 0 results).insertionSort
          readingLeIdx))[j]).1
          = ((((withIdx 0 results).insertionSort readingLeIdx)[j]).1) := by
        have h1 := congrArg (fun l => l[j]?) hkeysu
        simp only [List.getElem?_map] at h1
        rw [List.getElem?_eq_getElem hju, List.getElem?_eq_getElem hj] at h1
        simpa using h1
      have := find_at_key (ctxPass ((withIdx 0 results).insertionSort
          readingLeIdx)) j hju (by rw [ctxPass_fst]; exact hnodup)
      rw [hkeyj] at this
      exact this
    rw [hufind]
    have := ctxPass_getElem? ((withIdx 0 results).insertionSort readingLeIdx) j hj
    rw [List.getElem?_eq_getElem hju] at this
    have hval := Option.some.inj this
    rw [hval]
    rfl
  refine ⟨?_, ?_, hmain⟩
  · rw [contextBasedCorrection, List.length_map, List.length_range]
  · intro i hi
    -- locate `i` in the sorted sequence
    have hikey : i ∈ ((withIdx 0 results).insertionSort readingLeIdx).map
        Prod.fst := by
      refine (hperm.map Prod.fst).symm.subset ?_
      rw [withIdx_fst]
      have : i ∈ List.range' 0 results.length := by
        rw [List.mem_range'_1]
        exact ⟨Nat.zero_le i, by simpa using hi⟩
      exact this
    obtain ⟨p, hp, hpi⟩ := List.mem_map.mp hikey
    obtain ⟨j, hj, hpj⟩ := List.mem_iff_getElem.mp hp
    have hj1 : (((withIdx 0 results).insertionSort readingLeIdx)[j]).1 = i := by
      rw [hpj]
      exact hpi
    have h3 := hmain j hj
    rw [hj1] at h3
    have hres : results.getD i blankResult
        = (((withIdx 0 results).insertionSort readingLeIdx)[j]).2 := by
      have h4 := (hkey_lt j hj).2
      rw [hj1] at h4
      rw [List.getD_eq_getElem _ _ hi]
      rw [List.getElem?_eq_getElem hi] at h4
      exact Option.some.inj h4
    rw [hres]
    exact ⟨_, h3⟩

/-- Witness for `contextCorrection_spec` on a one-entry result list. -/
theorem contextCorrection_spec_witness :
    ∃ q : ℚ,
      (contextBasedCorrection [⟨"a", "A", 0, 0, 1, 1, 30, 0, 0, none⟩]).getD 0
          blankResult
        = { [⟨"a", "A", 0, 0, 1, 1, 30, 0, 0, none⟩].getD 0 blankResult with
            confidence := q } :=
  (contextCorrection_spec [⟨"a", "A", 0, 0, 1, 1, 30, 0, 0, none⟩]).2.1 0
    (by decide)

end EnhancedOCREngine

namespace CharSegmentation

/-- Mirror of `SegmentedChar`: bounding box plus the cropped bitmap. -/
structure SegChar where
  x : ℕ
  y : ℕ
  width : ℕ
  height : ℕ
  imageData : ImageData
deriving DecidableEq

/-- The equivalence set containing label `l` (the `labelMap` entry; the
shared mutable `Set` objects of the source partition the created labels,
modelled extensionally as a list of disjoint groups). -/
def groupOf (groups : List (List ℕ)) (l : ℕ) : List ℕ :=
  (groups.find? fun g => g.contains l).getD [l]

/-- Union of the equivalence sets of `a` and `b` (the
`set2.forEach(l => { set1.add(l); labelMap.set(l, set1) })` merge): after
it, all labels of both groups share one set.  A no-op when they already
share one. -/
def mergeGroups (groups : List (List ℕ)) (a b : ℕ) : List (List ℕ) :=
  let ga := groupOf groups a
  if ga.contains b then groups
  else
    (ga ++ groupOf groups b)
      :: groups.filter fun g => !(g.contains a) && !(g.contains b)

/-- The already-assigned labels of the left, top, top-left and top-right
neighbors of flat position `idx` (in the source's check order). -/
def neighborsOf (labels : List (Option ℕ)) (w idx : ℕ) : List ℕ :=
  let x := idx % w
  let y := idx / w
  (if 0 < x then (labels.getD (idx - 1) none).toList else [])
    ++ (if 0 < y then (labels.getD (idx - w) none).toList else [])
    ++ (if 0 < x ∧ 0 < y then (labels.getD (idx - w - 1) none).toList else [])
    ++ (if x < w - 1 ∧ 0 < y then (labels.getD (idx - w + 1) none).toList else [])

/-- One pixel of the first labeling pass: skip background; a foreground
pixel with no labeled neighbor opens a fresh label (a fresh singleton
equivalence set); otherwise it takes the minimum neighbor label and all
neighbor labels' sets are merged into it. -/
def ccaStep (w : ℕ) (binData : List ℕ)
    (st : List (Option ℕ) × List (List ℕ) × ℕ) (idx : ℕ) :
    List (Option ℕ) × List (List ℕ) × ℕ :=
  let labels := st.1
  let groups := st.2.1
  let next := st.2.2
  if 128 ≤ binData.getD (idx * 4) 255 then st
  else
    match neighborsOf labels w idx with
    | [] => (labels.set idx (some next), groups ++ [[next]], next + 1)
    | n0 :: rest =>
      let minLabel := rest.foldl min n0
      (labels.set idx (some minLabel),
       (n0 :: rest).foldl
         (fun gs l => if l ≠ minLabel then mergeGroups gs minLabel l else gs)
         groups,
       next)

/-- The full first pass over the raster (row-major, `idx = y·w + x`). -/
def ccaFirstPass (w h : ℕ) (binData : List ℕ) :
    List (Option ℕ) × List (List ℕ) × ℕ :=
  (List.range (h * w)).foldl (ccaStep w binData)
    (List.replicate (h * w) none, [], 0)

/-- Resolved label of `l`: the minimum of its equivalence set. -/
def finalLabel (groups : List (List ℕ)) (l : ℕ) : ℕ :=
  (groupOf groups l).foldl min ((groupOf groups l).headD l)

/-- Resolution of a whole labeling state: every labeled pixel resolved to
its equivalence set's minimum. -/
def resolveLabels (st : List (Option ℕ) × List (List ℕ) × ℕ) :
    List (Option ℕ) :=
  st.1.map fun ol => ol.map fun l => finalLabel st.2.1 l

/-- The second pass: the first pass's labels, each resolved to its
equivalence set's minimum. -/
def finalLabels (w h : ℕ) (binData : List ℕ) : List (Option ℕ) :=
  resolveLabels (ccaFirstPass w h binData)

/-- One bounding-box accumulation step of the `boundingBoxes` map
(insertion order preserved; an existing entry widens by min/max). -/
def bboxUpd (boxes : List (ℕ × (ℕ × ℕ × ℕ × ℕ))) (l x y : ℕ) :
    List (ℕ × (ℕ × ℕ × ℕ × ℕ)) :=
  match boxes with
  | [] => [(l, (x, y, x, y))]
  | (k, b) :: rest =>
    if k = l then (k, (min b.1 x, min b.2.1 y, max b.2.2.1 x, max b.2.2.2 y)) :: rest
    else (k, b) :: bboxUpd rest l x y

/-- Per-final-label bounding boxes `(minX, minY, maxX, maxY)`, keyed in
first-occurrence (raster) order. -/
def ccaBoxes (w h : ℕ) (binData : List ℕ) : List (ℕ × (ℕ × ℕ × ℕ × ℕ)) :=
  (List.range (h * w)).foldl
    (fun boxes idx =>
      match (finalLabels w h binData).getD idx none with
      | none => boxes
      | some l => bboxUpd boxes l (idx % w) (idx / w))
    []

/-- The component extraction applied to an already-binarized buffer:
components whose bounding box is narrower or shorter than 5 pixels are
dropped; each kept component carries its bitmap (its own pixels black,
the rest of the box white). -/
def ccaOn (binary : ImageData) : List SegChar :=
  let w := binary.width
  let h := binary.height
  let fl := finalLabels w h binary.data
  (ccaBoxes w h binary.data).filterMap fun pb =>
    let l := pb.1
    let mnx := pb.2.1
    let mny := pb.2.2.1
    let mxx := pb.2.2.2.1
    let mxy := pb.2.2.2.2
    let charWidth := mxx - mnx + 1
    let charHeight := mxy - mny + 1
    if charWidth < 5 ∨ charHeight < 5 then none
    else some
      { x := mnx, y := mny, width := charWidth, height := charHeight,
        imageData :=
          { width := charWidth, height := charHeight,
            data := (List.range charHeight).flatMap fun yy =>
              (List.range charWidth).flatMap fun xx =>
                if fl.getD ((mny + yy) * w + (mnx + xx)) none = some l
                then [0, 0, 0, 255] else [255, 255, 255, 255] } }

/-- `CharSegmentation.connectedComponentAnalysis`: binarize at threshold
128, then 4-neighbor (left, top, top-left, top-right) single-pass
labeling with equivalence-set merging, label resolution to set minima,
bounding-box accumulation, and the `< 5×5` size filter. -/
def connectedComponentAnalysis (img : ImageData) : List SegChar :=
  ccaOn (binarize img 128)

/-- All-natural-number variant of `binarize` (the luma comparison with
denominators cleared), for kernel evaluation. -/
def binarizeNat (img : ImageData) (t : ℕ) : ImageData :=
  { width := img.width
    height := img.height
    data :=
      (List.range (img.data.length / 4)).flatMap fun j =>
        let v : ℕ :=
          if 299 * pxAt img (4 * j) + 587 * pxAt img (4 * j + 1)
              + 114 * pxAt img (4 * j + 2) < 1000 * t then 0 else 255
        [v, v, v, 255] }

theorem binarize_eq_nat (img : ImageData) (t : ℕ) :
    binarize img (t : ℚ) = binarizeNat img t := by
  rw [binarize, binarizeNat]
  simp only [ImageData.mk.injEq, true_and]
  refine congrArg _ (funext fun j => ?_)
  have hiff : grayQ img (4 * j) < (t : ℚ)
      ↔ 299 * pxAt img (4 * j) + 587 * pxAt img (4 * j + 1)
          + 114 * pxAt img (4 * j + 2) < 1000 * t := by
    rw [grayQ, div_lt_iff₀ (by norm_num : (0 : ℚ) < 1000)]
    constructor
    · intro h
      exact_mod_cast (by push_cast; linarith : ((299 * pxAt img (4 * j)
        + 587 * pxAt img (4 * j + 1) + 114 * pxAt img (4 * j + 2) : ℕ) : ℚ)
        < ((1000 * t : ℕ) : ℚ))
    · intro h
      have : ((299 * pxAt img (4 * j) + 587 * pxAt img (4 * j + 1)
          + 114 * pxAt img (4 * j + 2) : ℕ) : ℚ) < ((1000 * t : ℕ) : ℚ) := by
        exact_mod_cast h
      push_cast at this
      linarith
  rw [if_congr hiff rfl rfl]

theorem cca_eq_nat (img : ImageData) :
    connectedComponentAnalysis img = ccaOn (binarizeNat img 128) := by
  rw [connectedComponentAnalysis,
    show (128 : ℚ) = ((128 : ℕ) : ℚ) from by norm_num, binarize_eq_nat]

/-- A 8×7 buffer whose binarization is a single solid 5×5 foreground
block with top-left corner (2, 1). -/
def blockImg : ImageData :=
  ⟨8, 7,
    (List.range 7).flatMap fun y =>
      (List.range 8).flatMap fun x =>
        if 2 ≤ x ∧ x ≤ 6 ∧ 1 ≤ y ∧ y ≤ 5
        then [0, 0, 0, 255] else [255, 255, 255, 255]⟩

end CharSegmentation

namespace CharSegmentation

/-- The single component the analysis finds in `blockImg`: the 5×5 block
with an all-black bitmap. -/
def blockChar : SegChar :=
  ⟨2, 1, 5, 5,
    ⟨5, 5, (List.range 5).flatMap fun _ =>
      (List.range 5).flatMap fun _ => [0, 0, 0, 255]⟩⟩

set_option maxRecDepth 100000 in
theorem blockImg_components :
    connectedComponentAnalysis blockImg = [blockChar] := by
  have hB : binarizeNat blockImg 128 = blockImg := by decide
  have hst : ccaFirstPass 8 7 blockImg.data
      = (((List.range 7).flatMap fun y => (List.range 8).map fun x =>
          (if 2 ≤ x ∧ x ≤ 6 ∧ 1 ≤ y ∧ y ≤ 5 then some 0 else none : Option ℕ)),
         [[0]], 1) := by decide
  have hfl : finalLabels 8 7 blockImg.data
      = ((List.range 7).flatMap fun y => (List.range 8).map fun x =>
          (if 2 ≤ x ∧ x ≤ 6 ∧ 1 ≤ y ∧ y ≤ 5 then some 0 else none : Option ℕ)) := by
    rw [finalLabels, hst]
    decide
  have hbox : ccaBoxes 8 7 blockImg.data = [(0, (2, 1, 6, 5))] := by
    rw [ccaBoxes, hfl]
    decide
  rw [cca_eq_nat, hB, ccaOn]
  rw [show blockImg.width = 8 from rfl, show blockImg.height = 7 from rfl]
  rw [hbox, hfl]
  decide

/-- Claim C9: on a buffer whose binarization is a single solid 5×5
foreground block, the analysis returns exactly one component whose
bounding box `(x, y, width, height)` equals the block; and, for every
input buffer, every component whose bounding box is narrower than 5
pixels or shorter than 5 pixels is dropped (every returned component is
at least 5×5). -/
theorem cca_spec :
    ((connectedComponentAnalysis blockImg).map fun c =>
        (c.x, c.y, c.width, c.height)) = [(2, 1, 5, 5)]
    ∧ ∀ (img : ImageData) (c : SegChar), c ∈ connectedComponentAnalysis img →
        5 ≤ c.width ∧ 5 ≤ c.height := by
  constructor
  · rw [blockImg_components]
    decide
  · intro img c hc
    rw [connectedComponentAnalysis] at hc
    obtain ⟨pb, hpb, hsome⟩ := List.mem_filterMap.mp hc
    simp only at hsome
    by_cases hcond :
        pb.2.2.2.1 - pb.2.1 + 1 < 5 ∨ pb.2.2.2.2 - pb.2.2.1 + 1 < 5
    · rw [if_pos hcond] at hsome
      cases hsome
    · rw [if_neg hcond] at hsome
      rw [not_or] at hcond
      obtain ⟨ha, hb⟩ := hcond
      have hc' := Option.some.inj hsome
      have hw : c.width = pb.2.2.2.1 - pb.2.1 + 1 := by rw [← hc']
      have hh : c.height = pb.2.2.2.2 - pb.2.2.1 + 1 := by rw [← hc']
      exact ⟨by omega, by omega⟩

/-- Witness for the size-filter half of `cca_spec`, at the concrete
block component. -/
theorem cca_spec_witness : 5 ≤ blockChar.width ∧ 5 ≤ blockChar.height :=
  cca_spec.2 blockImg blockChar
    (by rw [blockImg_components]; exact List.mem_singleton_self _)

end CharSegmentation
